import Mathlib

/-!
Verification development for the lineax preconditioner notebook.

The repository consists of a tutorial notebook that builds a 2D discrete
Laplacian as a sparse (coordinate-format) matrix, wraps it in a linear
operator, and solves the system with GMRES, first without and then with a
Jacobi (diagonal-inverse) preconditioner.

This file embeds the notebook code in Lean:

* `BCOO` models a JAX BCOO sparse matrix in coordinate format
  (`matrix.indices[:, 0]`, `matrix.indices[:, 1]`, `matrix.data`).
* `get_diagonal` is the notebook's diagonal-extraction routine, including
  its scatter-add (`diag.at[indices[:, 0]].add(diag_values)`) semantics,
  where out-of-range scatter indices are dropped.
* `scipy_diags`, `scipy_eye`, `scipy_kron` embed the scipy sparse
  constructors used by `poisson`, and `poisson` itself builds the 2D
  Laplacian `kron(eye(m), T_n) + kron(T_m, eye(n))` and converts the result
  to coordinate format (`BCOO.from_scipy_sparse` keeps the stored nonzero
  pattern of the scipy sum).
* The GMRES solver itself is not part of this repository (it is imported
  from the external lineax library), so it is modelled from the spec as an
  exact-arithmetic Krylov residual-minimization solver with left
  preconditioning, returning a result object rather than raising on
  non-convergence.

All arithmetic is over `ℚ`, the exact-arithmetic idealization of the
notebook's float32 computations.
-/

namespace LineaxSpec

/-- A sparse matrix in coordinate format, as in JAX `BCOO`:
parallel arrays of row indices, column indices and stored values,
together with the declared shape. Duplicate index pairs are allowed and
represent summed contributions. -/
structure BCOO where
  rows : List Nat
  cols : List Nat
  data : List ℚ
  rdim : Nat
  cdim : Nat

/-- The list of stored entries `(row, col, value)` of a coordinate-format
matrix, pairing up the three parallel arrays. -/
def BCOO.entries (M : BCOO) : List (Nat × Nat × ℚ) :=
  M.rows.zip (M.cols.zip M.data)

/-- The dense matrix represented by a coordinate-format sparse matrix:
entry `(i, j)` is the sum of all stored values at index pair `(i, j)`
(duplicates are summed). -/
def BCOO.toMatrix (M : BCOO) : Nat → Nat → ℚ :=
  fun i j =>
    (((M.entries.filter (fun e => e.1 = i ∧ e.2.1 = j)).map (fun e => e.2.2)).sum)

/-- One step of the scatter-add `diag.at[r].add(v)`: adds `v` to position `r`
of the accumulator. `List.set` is a no-op out of range, matching JAX's
default drop semantics for out-of-bounds scatter indices under `jit`. -/
def scatterAddStep (d : List ℚ) (rv : Nat × ℚ) : List ℚ :=
  d.set rv.1 (d.getD rv.1 0 + rv.2)

/-- The notebook's `get_diagonal`: mask the stored values down to those on
the main diagonal (`indices[:, 0] == indices[:, 1]`), then scatter-add them
into a zero vector of length `shape[0]` at the row indices. -/
def get_diagonal (M : BCOO) : List ℚ :=
  let is_diag : List Bool := List.zipWith (fun r c => decide (r = c)) M.rows M.cols
  let diag_values : List ℚ := List.zipWith (fun b v => if b then v else 0) is_diag M.data
  (M.rows.zip diag_values).foldl scatterAddStep (List.replicate M.rdim 0)

/-- `scipy.sparse.diags(values, offsets, shape=(k, k))`: the dense semantics
of a banded matrix, with value `v` placed on the diagonal of offset `o`
(entry `(i, j)` lies on offset `j - i`). Entries outside the `k`-by-`k`
shape are zero. -/
def scipy_diags (vo : List (ℚ × Int)) (k : Nat) : Nat → Nat → ℚ :=
  fun i j =>
    if i < k ∧ j < k then
      ((vo.filter (fun p => (j : Int) - (i : Int) = p.2)).map (fun p => p.1)).sum
    else 0

/-- `scipy.sparse.eye(k)`: the k-by-k identity, zero outside the shape. -/
def scipy_eye (k : Nat) : Nat → Nat → ℚ :=
  fun i j => if i < k ∧ j < k ∧ i = j then 1 else 0

/-- `scipy.sparse.kron(A, B)` where `B` is `q`-by-`q`: entry `(i, j)` is
`A[i / q, j / q] * B[i % q, j % q]`. -/
def scipy_kron (q : Nat) (A B : Nat → Nat → ℚ) : Nat → Nat → ℚ :=
  fun i j => A (i / q) (j / q) * B (i % q) (j % q)

/-- The notebook's 1D Laplacian factor
`diags([-1, 2, -1], [-1, 0, 1], shape=(k, k))`. -/
def lap_1d (k : Nat) : Nat → Nat → ℚ :=
  scipy_diags [(-1, -1), (2, 0), (-1, 1)] k

/-- The dense semantics of the notebook's
`kron(eye(m), lap_1d_n) + kron(lap_1d_m, eye(n))`. -/
def poissonDense (n m : Nat) : Nat → Nat → ℚ :=
  fun i j =>
    scipy_kron n (scipy_eye m) (lap_1d n) i j +
      scipy_kron n (lap_1d m) (scipy_eye n) i j

/-- `BCOO.from_scipy_sparse` applied to an `r`-by-`c` scipy matrix with
dense semantics `f`: the stored entries are the nonzero pattern, listed in
row-major order (position `t` of the scan corresponds to `(t / c, t % c)`). -/
def denseToBCOO (r c : Nat) (f : Nat → Nat → ℚ) : BCOO :=
  let es : List (Nat × Nat × ℚ) :=
    (List.range (r * c)).filterMap (fun t =>
      if f (t / c) (t % c) = 0 then none else some (t / c, t % c, f (t / c) (t % c)))
  ⟨es.map (fun e => e.1), es.map (fun e => e.2.1), es.map (fun e => e.2.2), r, c⟩

/-- The notebook's `poisson(n, m)`: build the 2D Laplacian with scipy and
convert it to a JAX BCOO sparse matrix. -/
def poisson (n m : Nat) : BCOO :=
  denseToBCOO (n * m) (n * m) (poissonDense n m)

/-- The spec's `T_k`: the k-by-k tridiagonal matrix with `2` on the main
diagonal and `-1` on the first sub- and super-diagonals. -/
def specT (k : Nat) : Matrix (Fin k) (Fin k) ℚ :=
  Matrix.of fun i j =>
    if (i : Nat) = (j : Nat) then 2
    else if (i : Nat) + 1 = (j : Nat) ∨ (j : Nat) + 1 = (i : Nat) then -1 else 0

/-- The spec's target matrix `kron(I_m, T_n) + kron(T_m, I_n)`, the 2D
discrete Laplacian on an n-by-m grid, indexed by (block, offset) pairs. -/
def specLap (n m : Nat) : Matrix (Fin m × Fin n) (Fin m × Fin n) ℚ :=
  Matrix.kronecker (1 : Matrix (Fin m) (Fin m) ℚ) (specT n) +
    Matrix.kronecker (specT m) (1 : Matrix (Fin n) (Fin n) ℚ)

/-- The (block, offset) grid index corresponding to a flat row-major index
below `n * m` (blocks of size `n`). -/
def gridIdx (n m i : Nat) (h : i < n * m) : Fin m × Fin n :=
  (⟨i / n, by
      have hn : 0 < n := by
        rcases Nat.eq_zero_or_pos n with h0 | h0
        · subst h0
          simp at h
        · exact h0
      exact (Nat.div_lt_iff_lt_mul hn).mpr (by rwa [Nat.mul_comm m n])⟩,
   ⟨i % n, by
      have hn : 0 < n := by
        rcases Nat.eq_zero_or_pos n with h0 | h0
        · subst h0
          simp at h
        · exact h0
      exact Nat.mod_lt _ hn⟩)

/-! ### GMRES solver core

The GMRES solver itself is not part of this repository (the notebook imports
it from the external lineax library). The definitions below are modelled
from the spec: an exact-arithmetic GMRES over `ℚ` that at step `k` minimizes
the (left-preconditioned) residual norm over the Krylov subspace of
dimension at most `k`, realized by a modified Gram–Schmidt orthogonalization
and an orthogonal projection. Convergence is tested against
`residual_norm <= atol + rtol * norm b` (in the preconditioned space), and
non-convergence is surfaced as a status in the returned result object, never
as an exception, mirroring the notebook's `throw=False` call pattern. -/

open Matrix

/-- A vector of dimension `N`. -/
abbrev Vec (N : Nat) := Fin N → ℚ

/-- One modified Gram–Schmidt update: subtract from the running pair `q` its
component along the orthogonalized pair `aq` (skipping degenerate pairs with
zero-norm image); the same coefficient is applied to the preimage and the
image so the invariant `image = operator applied to preimage` is kept. -/
def reduceStep {N : Nat} (q aq : Vec N × Vec N) : Vec N × Vec N :=
  if dotProduct aq.2 aq.2 = 0 then q
  else q - (dotProduct q.2 aq.2 / dotProduct aq.2 aq.2) • aq

/-- Orthogonalize the pair `p` against all previously produced pairs. -/
def reduceAgainst {N : Nat} (acc : List (Vec N × Vec N)) (p : Vec N × Vec N) :
    Vec N × Vec N :=
  acc.foldl reduceStep p

/-- The Arnoldi/Gram–Schmidt accumulation: each incoming pair is
orthogonalized (in its image component) against the pairs produced so far
and appended. -/
def gsAppend {N : Nat} : List (Vec N × Vec N) → List (Vec N × Vec N) →
    List (Vec N × Vec N)
  | acc, [] => acc
  | acc, p :: ps => gsAppend (acc ++ [reduceAgainst acc p]) ps

/-- Gram–Schmidt on a list of (preimage, image) pairs. -/
def gramSchmidtPairs {N : Nat} (ps : List (Vec N × Vec N)) :
    List (Vec N × Vec N) :=
  gsAppend [] ps

/-- The least-squares coefficient of `r0` along the (orthogonalized) image
of a pair, zero for degenerate pairs. -/
def projCoeff {N : Nat} (r0 : Vec N) (uq : Vec N × Vec N) : ℚ :=
  if dotProduct uq.2 uq.2 = 0 then 0
  else dotProduct r0 uq.2 / dotProduct uq.2 uq.2

/-- The solution update reconstructed from the orthogonalized pairs: the
least-squares combination of the preimages. -/
def solUpdate {N : Nat} (r0 : Vec N) (pairs : List (Vec N × Vec N)) : Vec N :=
  (pairs.map (fun uq => projCoeff r0 uq • uq.1)).sum

/-- The orthogonal projection of `r0` onto the span of the images. -/
def projImage {N : Nat} (r0 : Vec N) (pairs : List (Vec N × Vec N)) : Vec N :=
  (pairs.map (fun uq => projCoeff r0 uq • uq.2)).sum

/-- The Krylov vectors `r0, A r0, ..., A^(k-1) r0`. -/
def krylovVecs {N : Nat} (A : Matrix (Fin N) (Fin N) ℚ) (r0 : Vec N)
    (k : Nat) : List (Vec N) :=
  (List.range k).map (fun i => (A ^ i).mulVec r0)

/-- The GMRES iterate after `k` steps with left preconditioner `Mp`: the
minimizer of the preconditioned residual norm over
`x0 + span (Krylov subspace of Mp * A at Mp (b - A x0))`, computed by
projecting the preconditioned initial residual onto the images of the
Krylov vectors. `Mp = 1` is the unpreconditioned solver. -/
def gmresSolution {N : Nat} (A Mp : Matrix (Fin N) (Fin N) ℚ)
    (b x0 : Vec N) (k : Nat) : Vec N :=
  let r0 := Mp.mulVec (b - A.mulVec x0)
  let MA := Mp * A
  let pairs := gramSchmidtPairs ((krylovVecs MA r0 k).map (fun v => (v, MA.mulVec v)))
  x0 + solUpdate r0 pairs

/-- Terminal states of a solve, as in the spec's state machine. -/
inductive SolveStatus
  | converged
  | maxStepsReached
  | breakdown
  deriving DecidableEq

/-- The result object returned by a solve: approximate solution, terminal
status and number of iterations, inspectable by the caller. -/
structure SolveResult (N : Nat) where
  value : Vec N
  status : SolveStatus
  steps : Nat
  deriving DecidableEq

/-- Fatal errors: malformed inputs fail fast, unlike numerical
non-convergence which is reported in the result object. -/
inductive SolveError
  | dimensionMismatch
  | invalidConfiguration
  deriving DecidableEq

/-- GMRES solver configuration, as in
`lx.GMRES(atol=..., rtol=..., max_steps=...)`. -/
structure GMRES where
  atol : ℚ
  rtol : ℚ
  max_steps : Nat
  deriving DecidableEq

/-- The convergence test `sqrt rSq <= atol + rtol * sqrt bSq` on squared
norms, phrased decidably over `ℚ` (for nonnegative `atol`, `rtol`):
equivalent to `rSq - atol^2 - rtol^2 * bSq` being nonpositive or of square
at most `(2 * atol * rtol)^2 * bSq`. -/
def tolSat (atol rtol bSq rSq : ℚ) : Bool :=
  decide (rSq - (atol ^ 2 + rtol ^ 2 * bSq) ≤ 0 ∨
    (rSq - (atol ^ 2 + rtol ^ 2 * bSq)) ^ 2 ≤ 4 * atol ^ 2 * rtol ^ 2 * bSq)

/-- Interpret a length-checked list as a vector. -/
def listToVec (N : Nat) (b : List ℚ) (h : b.length = N) : Vec N :=
  fun i => b.get ⟨i.val, by rw [h]; exact i.isLt⟩

/-- The left-preconditioned residual of the `k`-th GMRES iterate,
`Mp (b - A x_k)`: the quantity whose norm the convergence test monitors. -/
def presidual {N : Nat} (A Mp : Matrix (Fin N) (Fin N) ℚ) (b x0 : Vec N)
    (k : Nat) : Vec N :=
  Mp.mulVec (b - A.mulVec (gmresSolution A Mp b x0 k))

/-- Modelled from the spec: `lx.linear_solve(operator, b, solver=GMRES(...),
throw=False)` with an optional left preconditioner. The right-hand side is
dimension-checked against the operator; a mismatch is a fatal
`DimensionMismatch` error raised before any iteration. Otherwise the solver
returns the first iterate (up to `max_steps`) meeting the tolerance
(`k = 0` is the initial-residual check of the INIT state), or the
`max_steps` iterate with the non-fatal `maxStepsReached` status. -/
def linear_solve {N : Nat} (A : Matrix (Fin N) (Fin N) ℚ) (b : List ℚ)
    (solver : GMRES) (Mp : Matrix (Fin N) (Fin N) ℚ) (x0 : Vec N) :
    Except SolveError (SolveResult N) :=
  if hb : b.length = N then
    match (List.range (solver.max_steps + 1)).find?
        (fun k => tolSat solver.atol solver.rtol
          (dotProduct (Mp.mulVec (listToVec N b hb)) (Mp.mulVec (listToVec N b hb)))
          (dotProduct (presidual A Mp (listToVec N b hb) x0 k)
            (presidual A Mp (listToVec N b hb) x0 k))) with
    | some k => .ok ⟨gmresSolution A Mp (listToVec N b hb) x0 k, .converged, k⟩
    | none => .ok ⟨gmresSolution A Mp (listToVec N b hb) x0 solver.max_steps,
        .maxStepsReached, solver.max_steps⟩
  else .error .dimensionMismatch

/-- The notebook's preconditioner apply function `lambda x: x / jacobi`:
unguarded elementwise division by the extracted diagonal. (In the float
semantics of the notebook, division by a zero entry produces a non-finite
value; over `ℚ` the division totalizes to `0`, which likewise destroys the
inverse property at that coordinate.) -/
def precondFun {N : Nat} (jac x : Vec N) : Vec N :=
  fun i => x i / jac i

/-- The notebook's `SparseMatrixLinearOperator`: a linear operator backed by
a sparse matrix in coordinate format. -/
structure SparseMatrixLinearOperator where
  matrix : BCOO

/-- The notebook's registered positive-semidefiniteness tag for
`SparseMatrixLinearOperator`: it returns `True` unconditionally, without
inspecting the wrapped matrix. -/
def is_positive_semidefinite (_ : SparseMatrixLinearOperator) : Bool :=
  true

/-- The quadratic form of the represented matrix over its declared shape. -/
def BCOO.quadForm (M : BCOO) (x : Nat → ℚ) : ℚ :=
  ∑ i ∈ Finset.range M.rdim, ∑ j ∈ Finset.range M.cdim,
    x i * M.toMatrix i j * x j

/-- Actual positive-semidefiniteness of the represented matrix. -/
def BCOO.isPSD (M : BCOO) : Prop :=
  ∀ x : Nat → ℚ, 0 ≤ M.quadForm x

/-- The span of the vectors in a list. -/
def listSpan {N : Nat} (l : List (Vec N)) : Submodule ℚ (Vec N) :=
  Submodule.span ℚ {v | v ∈ l}

/-- A symmetric positive-definite matrix, as in the spec's testable
property for GMRES convergence. -/
def IsSPDMatrix {N : Nat} (A : Matrix (Fin N) (Fin N) ℚ) : Prop :=
  A.IsSymm ∧ ∀ x : Vec N, x ≠ 0 → 0 < dotProduct x (A.mulVec x)

/-- Rescaling a Gram–Schmidt pair: the preimage by `μ`, the image by
`c * μ` (the image picks up the extra preconditioner factor `c`). -/
def scalePair {N : Nat} (c μ : ℚ) (p : Vec N × Vec N) : Vec N × Vec N :=
  (μ • p.1, (c * μ) • p.2)

/-- The Poisson matrix of the notebook as a square matrix over `Fin (n*m)`. -/
def poissonMatrix (n m : Nat) : Matrix (Fin (n * m)) (Fin (n * m)) ℚ :=
  Matrix.of fun i j => (poisson n m).toMatrix i.val j.val

/-- The notebook's `jacobi = get_diagonal(A)` as a vector. -/
def jacobiVec (n m : Nat) : Vec (n * m) :=
  fun i => (get_diagonal (poisson n m)).getD i.val 0

/-! ### Lemmas and claim theorems -/

lemma scatterAddStep_length (d : List ℚ) (rv : Nat × ℚ) :
    (scatterAddStep d rv).length = d.length := by
  simp [scatterAddStep]

lemma scatterFold_length (l : List (Nat × ℚ)) (d : List ℚ) :
    (l.foldl scatterAddStep d).length = d.length := by
  induction l generalizing d with
  | nil => rfl
  | cons a l ih => simp [List.foldl_cons, ih, scatterAddStep_length]

/-- The scatter-add fold computes, at each in-range position `i`, the old
value plus the sum of all scattered values whose target index is `i`. -/
lemma scatterFold_getD (l : List (Nat × ℚ)) (d : List ℚ) (i : Nat) (hi : i < d.length) :
    (l.foldl scatterAddStep d).getD i 0 =
      d.getD i 0 + ((l.filter (fun rv => rv.1 = i)).map (fun rv => rv.2)).sum := by
  induction l generalizing d with
  | nil => simp
  | cons a l ih =>
    rw [List.foldl_cons]
    rw [ih (scatterAddStep d a) (by rw [scatterAddStep_length]; exact hi)]
    by_cases h : a.1 = i
    · subst h
      have hset : (scatterAddStep d a).getD a.1 0 = d.getD a.1 0 + a.2 := by
        simp [scatterAddStep, List.getD]
        rw [List.getElem?_set_eq_of_lt _ hi]
        rfl
      rw [hset]
      simp [List.filter_cons, add_assoc]
    · have hset : (scatterAddStep d a).getD i 0 = d.getD i 0 := by
        simp [scatterAddStep, List.getD]
        rw [List.getElem?_set_ne h]
      rw [hset]
      simp [List.filter_cons, h]

/-- The row-masked value list used by `get_diagonal`, filtered to a given row
index and summed, agrees with the sum of the stored values at index pair
`(i, i)`. The zip truncation on both sides drops entries beyond the shortest
of the three parallel arrays in the same way. -/
lemma masked_filter_sum (rs cs : List Nat) (ds : List ℚ) (i : Nat) :
    (((rs.zip (List.zipWith (fun b v => if b then v else 0)
        (List.zipWith (fun r c => decide (r = c)) rs cs) ds)).filter
          (fun rv => rv.1 = i)).map (fun rv => rv.2)).sum =
      (((rs.zip (cs.zip ds)).filter
          (fun e => e.1 = i ∧ e.2.1 = i)).map (fun e => e.2.2)).sum := by
  induction rs generalizing cs ds with
  | nil => simp
  | cons r rs ih =>
    cases cs with
    | nil => simp
    | cons c cs =>
      cases ds with
      | nil => simp
      | cons d ds =>
        simp only [List.zipWith_cons_cons, List.zip_cons_cons, List.filter_cons]
        by_cases hri : r = i
        · subst hri
          by_cases hrc : r = c
          · subst hrc
            simp [ih, List.map_cons]
          · have hci : ¬ c = r := fun h => hrc h.symm
            simp [hrc, hci, ih]
        · simp [hri, ih]

/-- The length of `get_diagonal M` is the declared row dimension. -/
lemma get_diagonal_length (M : BCOO) : (get_diagonal M).length = M.rdim := by
  simp [get_diagonal, scatterFold_length]

/-- The `i`-th entry produced by `get_diagonal` is the sum of the stored
values at index pair `(i, i)`. -/
lemma get_diagonal_eq_diag_sum (M : BCOO) (i : Nat) (hi : i < M.rdim) :
    (get_diagonal M).getD i 0 =
      ((M.entries.filter (fun e => e.1 = i ∧ e.2.1 = i)).map
        (fun e => e.2.2)).sum := by
  have hlen : i < (List.replicate M.rdim (0 : ℚ)).length := by
    simpa using hi
  have h := scatterFold_getD
    (M.rows.zip (List.zipWith (fun b v => if b then v else 0)
      (List.zipWith (fun r c => decide (r = c)) M.rows M.cols) M.data))
    (List.replicate M.rdim 0) i hlen
  have hrepl : (List.replicate M.rdim (0 : ℚ)).getD i 0 = 0 := by
    simp [List.getD, List.getElem?_replicate, hi]
  show ((M.rows.zip (List.zipWith (fun b v => if b then v else 0)
      (List.zipWith (fun r c => decide (r = c)) M.rows M.cols)
        M.data)).foldl scatterAddStep (List.replicate M.rdim 0)).getD i 0 = _
  rw [h, hrepl, zero_add]
  exact masked_filter_sum M.rows M.cols M.data i

/-- C3: `get_diagonal` on a square coordinate-format matrix returns a
vector of length `N` whose `i`-th entry is the sum of the stored values at
index pair `(i, i)`, i.e. the true diagonal of the represented matrix;
stored off-diagonal entries contribute exactly zero. -/
theorem get_diagonal_correct (M : BCOO) (_hsq : M.cdim = M.rdim) :
    (get_diagonal M).length = M.rdim ∧
      ∀ i, i < M.rdim →
        (get_diagonal M).getD i 0 =
          ((M.entries.filter (fun e => e.1 = i ∧ e.2.1 = i)).map
            (fun e => e.2.2)).sum ∧
        (get_diagonal M).getD i 0 = M.toMatrix i i := by
  refine ⟨get_diagonal_length M, fun i hi => ?_⟩
  exact ⟨get_diagonal_eq_diag_sum M i hi, get_diagonal_eq_diag_sum M i hi⟩

/-- Witness for C3 at a concrete matrix with a duplicate diagonal entry and
an off-diagonal entry. -/
theorem get_diagonal_correct_witness :
    (BCOO.mk [0, 1, 0, 1] [0, 1, 1, 1] [5, 2, 3, 4] 2 2).cdim =
        (BCOO.mk [0, 1, 0, 1] [0, 1, 1, 1] [5, 2, 3, 4] 2 2).rdim ∧
      ((get_diagonal (BCOO.mk [0, 1, 0, 1] [0, 1, 1, 1] [5, 2, 3, 4] 2 2)).length =
          (BCOO.mk [0, 1, 0, 1] [0, 1, 1, 1] [5, 2, 3, 4] 2 2).rdim ∧
        ∀ i, i < (BCOO.mk [0, 1, 0, 1] [0, 1, 1, 1] [5, 2, 3, 4] 2 2).rdim →
          (get_diagonal (BCOO.mk [0, 1, 0, 1] [0, 1, 1, 1] [5, 2, 3, 4] 2 2)).getD i 0 =
            (((BCOO.mk [0, 1, 0, 1] [0, 1, 1, 1] [5, 2, 3, 4] 2 2).entries.filter
              (fun e => e.1 = i ∧ e.2.1 = i)).map (fun e => e.2.2)).sum ∧
          (get_diagonal (BCOO.mk [0, 1, 0, 1] [0, 1, 1, 1] [5, 2, 3, 4] 2 2)).getD i 0 =
            (BCOO.mk [0, 1, 0, 1] [0, 1, 1, 1] [5, 2, 3, 4] 2 2).toMatrix i i) :=
  ⟨rfl, get_diagonal_correct (BCOO.mk [0, 1, 0, 1] [0, 1, 1, 1] [5, 2, 3, 4] 2 2) rfl⟩

/-- Zipping the three parallel arrays of `denseToBCOO` back up recovers the
entry list itself. -/
lemma denseToBCOO_entries (r c : Nat) (f : Nat → Nat → ℚ) :
    (denseToBCOO r c f).entries =
      (List.range (r * c)).filterMap (fun t =>
        if f (t / c) (t % c) = 0 then none
        else some (t / c, t % c, f (t / c) (t % c))) := by
  have h : ∀ es : List (Nat × Nat × ℚ),
      (es.map (fun e => e.1)).zip
        ((es.map (fun e => e.2.1)).zip (es.map (fun e => e.2.2))) = es := by
    intro es
    rw [List.zip_map', List.zip_map']
    have hid : (fun e : Nat × Nat × ℚ => (e.1, e.2.1, e.2.2)) = id :=
      funext fun e => rfl
    rw [hid, List.map_id]
  exact h _

/-- The filtered-and-summed stored values of the row-major nonzero scan at a
fixed index pair `(i, j)` with `j < c`: only scan position `i * c + j` can
contribute, and it contributes exactly `f i j`. -/
lemma denseScan_filter_sum (c : Nat) (f : Nat → Nat → ℚ) (i j : Nat)
    (hc : 0 < c) (hj : j < c) (L : Nat) :
    ((((List.range L).filterMap (fun t =>
        if f (t / c) (t % c) = 0 then none
        else some (t / c, t % c, f (t / c) (t % c)))).filter
          (fun e => e.1 = i ∧ e.2.1 = j)).map (fun e => e.2.2)).sum =
      if i * c + j < L then f i j else 0 := by
  induction L with
  | zero => simp
  | succ L ih =>
    rw [List.range_succ, List.filterMap_append, List.filter_append,
      List.map_append, List.sum_append, ih]
    have hidx : (L / c = i ∧ L % c = j) ↔ L = i * c + j := by
      constructor
      · rintro ⟨h1, h2⟩
        have hdm := Nat.div_add_mod L c
        rw [h1, h2, Nat.mul_comm] at hdm
        omega
      · rintro rfl
        constructor
        · rw [Nat.mul_comm, Nat.mul_add_div hc, Nat.div_eq_of_lt hj, Nat.add_zero]
        · rw [Nat.mul_comm, Nat.mul_add_mod, Nat.mod_eq_of_lt hj]
    by_cases hL : L = i * c + j
    · subst hL
      rw [if_neg (Nat.lt_irrefl _), if_pos (Nat.lt_succ_self _), zero_add]
      have hdiv : (i * c + j) / c = i := by
        rw [Nat.mul_comm, Nat.mul_add_div hc, Nat.div_eq_of_lt hj, Nat.add_zero]
      have hmod : (i * c + j) % c = j := by
        rw [Nat.mul_comm, Nat.mul_add_mod, Nat.mod_eq_of_lt hj]
      by_cases hz : f ((i * c + j) / c) ((i * c + j) % c) = 0
      · have hz' : f i j = 0 := by
          rw [hdiv, hmod] at hz
          exact hz
        simp [List.filterMap_cons, hz, hz']
      · rw [List.filterMap_cons, if_neg hz, List.filterMap_nil]
        rw [List.filter_cons]
        rw [if_pos (by simp [hdiv, hmod])]
        simp [hdiv, hmod]
    · have hnew : ((([L].filterMap (fun t =>
          if f (t / c) (t % c) = 0 then none
          else some (t / c, t % c, f (t / c) (t % c)))).filter
            (fun e => e.1 = i ∧ e.2.1 = j)).map (fun e => e.2.2)).sum = 0 := by
        by_cases hz : f (L / c) (L % c) = 0
        · simp [List.filterMap_cons, hz]
        · rw [List.filterMap_cons, if_neg hz, List.filterMap_nil]
          rw [List.filter_cons]
          rw [if_neg (by
            simp only [decide_eq_true_eq]
            exact fun hcontra => hL (hidx.mp hcontra))]
          simp
      rw [hnew, add_zero]
      by_cases hlt : i * c + j < L
      · rw [if_pos hlt, if_pos (by omega)]
      · rw [if_neg hlt, if_neg (by omega)]

/-- The dense matrix represented by `denseToBCOO r c f` agrees with `f` on
the declared shape. -/
lemma denseToBCOO_toMatrix (r c : Nat) (f : Nat → Nat → ℚ) (i j : Nat)
    (hi : i < r) (hj : j < c) :
    (denseToBCOO r c f).toMatrix i j = f i j := by
  have hc : 0 < c := Nat.lt_of_le_of_lt (Nat.zero_le j) hj
  rw [BCOO.toMatrix, denseToBCOO_entries, denseScan_filter_sum c f i j hc hj]
  have : i * c + j < r * c := by
    calc i * c + j < i * c + c := by omega
    _ = (i + 1) * c := by ring
    _ ≤ r * c := Nat.mul_le_mul_right c hi
  rw [if_pos this]

/-- In-range entries of the notebook's 1D Laplacian factor: `2` on the main
diagonal, `-1` on the first sub- and super-diagonals, `0` elsewhere. -/
lemma lap_1d_apply (k a b : Nat) (ha : a < k) (hb : b < k) :
    lap_1d k a b =
      if a = b then 2 else if a + 1 = b ∨ b + 1 = a then -1 else 0 := by
  have e1 : ((b : Int) - (a : Int) = -1) ↔ (b + 1 = a) := by omega
  have e2 : ((b : Int) - (a : Int) = 0) ↔ (a = b) := by omega
  have e3 : ((b : Int) - (a : Int) = 1) ↔ (a + 1 = b) := by omega
  rw [lap_1d, scipy_diags, if_pos ⟨ha, hb⟩]
  by_cases h2 : a = b
  · have h1 : ¬ (b + 1 = a) := by omega
    have h3 : ¬ (a + 1 = b) := by omega
    simp [List.filter_cons, List.filter_nil, e1, e2, e3, h1, h2, h3]
  · by_cases h3 : a + 1 = b
    · have h1 : ¬ (b + 1 = a) := by omega
      simp [List.filter_cons, List.filter_nil, e1, e2, e3, h1, h2, h3]
    · by_cases h1 : b + 1 = a
      · simp [List.filter_cons, List.filter_nil, e1, e2, e3, h1, h2, h3]
      · simp [List.filter_cons, List.filter_nil, e1, e2, e3, h1, h2, h3]

/-- Every main-diagonal entry of the dense 2D Laplacian is `4`. -/
lemma poissonDense_diag (n m i : Nat) (hi : i < n * m) :
    poissonDense n m i i = 4 := by
  have hn : 0 < n := by
    rcases Nat.eq_zero_or_pos n with h0 | h0
    · subst h0
      simp at hi
    · exact h0
  have hdm : i / n < m := (Nat.div_lt_iff_lt_mul hn).mpr (by rwa [Nat.mul_comm m n])
  have hmn : i % n < n := Nat.mod_lt _ hn
  rw [poissonDense, scipy_kron, scipy_kron]
  rw [lap_1d_apply n (i % n) (i % n) hmn hmn, lap_1d_apply m (i / n) (i / n) hdm hdm]
  rw [scipy_eye, scipy_eye]
  simp [hdm, hmn]
  norm_num

/-- C4: `poisson n m` is a square `(n*m)`-by-`(n*m)` sparse representation
of `kron(I_m, T_n) + kron(T_m, I_n)`, the 2D discrete Laplacian on an
n-by-m grid. -/
theorem poisson_represents_laplacian (n m i j : Nat)
    (hi : i < n * m) (hj : j < n * m) :
    ((poisson n m).rdim = n * m ∧ (poisson n m).cdim = n * m) ∧
      (poisson n m).toMatrix i j = specLap n m (gridIdx n m i hi) (gridIdx n m j hj) := by
  refine ⟨⟨rfl, rfl⟩, ?_⟩
  have hn : 0 < n := by
    rcases Nat.eq_zero_or_pos n with h0 | h0
    · subst h0
      simp at hi
    · exact h0
  have hdi : i / n < m := (Nat.div_lt_iff_lt_mul hn).mpr (by rwa [Nat.mul_comm m n])
  have hdj : j / n < m := (Nat.div_lt_iff_lt_mul hn).mpr (by rwa [Nat.mul_comm m n])
  have hmi : i % n < n := Nat.mod_lt _ hn
  have hmj : j % n < n := Nat.mod_lt _ hn
  rw [poisson, denseToBCOO_toMatrix (n * m) (n * m) (poissonDense n m) i j hi hj]
  rw [poissonDense, scipy_kron, scipy_kron]
  rw [lap_1d_apply n (i % n) (j % n) hmi hmj, lap_1d_apply m (i / n) (j / n) hdi hdj]
  rw [scipy_eye, scipy_eye]
  show _ = (Matrix.kronecker (1 : Matrix (Fin m) (Fin m) ℚ) (specT n)
      + Matrix.kronecker (specT m) (1 : Matrix (Fin n) (Fin n) ℚ))
        (gridIdx n m i hi) (gridIdx n m j hj)
  rw [Matrix.add_apply]
  rw [gridIdx, gridIdx]
  simp only [Matrix.kronecker, Matrix.kroneckerMap_apply]
  simp only [Matrix.one_apply, specT, Matrix.of_apply, Fin.mk.injEq]
  congr 1
  · by_cases hd : i / n = j / n
    · simp [hd, hdi, hdj, hmi, hmj]
    · simp [hd, hdi, hdj]
  · by_cases hm' : i % n = j % n
    · simp [hm', hmi, hmj, hdi, hdj]
    · simp [hm', hmi, hmj]

/-- Witness for C4 at `n = m = 2`, `i = 1`, `j = 3`. -/
theorem poisson_represents_laplacian_witness :
    (1 < 2 * 2 ∧ 3 < 2 * 2) ∧
      (((poisson 2 2).rdim = 2 * 2 ∧ (poisson 2 2).cdim = 2 * 2) ∧
        (poisson 2 2).toMatrix 1 3 =
          specLap 2 2 (gridIdx 2 2 1 (by decide)) (gridIdx 2 2 3 (by decide))) :=
  ⟨⟨by decide, by decide⟩,
    poisson_represents_laplacian 2 2 1 3 (by decide) (by decide)⟩

/-- C9: a right-hand side whose length differs from the operator dimension
fails immediately with `DimensionMismatch`; the failure is fatal and is
never converted into a non-fatal result. -/
theorem dimension_mismatch_fatal {N : Nat} (A Mp : Matrix (Fin N) (Fin N) ℚ)
    (solver : GMRES) (x0 : Vec N) (b : List ℚ) (hb : ¬ b.length = N) :
    linear_solve A b solver Mp x0 = .error .dimensionMismatch ∧
      ∀ res : SolveResult N, linear_solve A b solver Mp x0 ≠ .ok res := by
  have h : linear_solve A b solver Mp x0 = .error .dimensionMismatch := by
    rw [linear_solve, dif_neg hb]
  exact ⟨h, fun res hres => by rw [h] at hres; exact Except.noConfusion hres⟩

/-- Witness for C9: a length-2 right-hand side against a 1-by-1 operator. -/
theorem dimension_mismatch_fatal_witness :
    ¬ ([1, 2] : List ℚ).length = 1 ∧
      (linear_solve (1 : Matrix (Fin 1) (Fin 1) ℚ) [1, 2] ⟨1, 1, 5⟩ 1 0 =
          .error .dimensionMismatch ∧
        ∀ res : SolveResult 1,
          linear_solve (1 : Matrix (Fin 1) (Fin 1) ℚ) [1, 2] ⟨1, 1, 5⟩ 1 0 ≠
            .ok res) :=
  ⟨by decide, dimension_mismatch_fatal 1 1 ⟨1, 1, 5⟩ 0 [1, 2] (by decide)⟩

/-- The GMRES iterate after zero steps is the initial guess. -/
lemma gmresSolution_zero {N : Nat} (A Mp : Matrix (Fin N) (Fin N) ℚ)
    (b x0 : Vec N) : gmresSolution A Mp b x0 0 = x0 := by
  simp [gmresSolution, krylovVecs, gramSchmidtPairs, gsAppend, solUpdate]

/-- If the initial (preconditioner-free) residual already meets the
tolerance, the solve converges with zero iterations and returns the initial
guess. -/
lemma solve_converged_at_init {N : Nat} (A : Matrix (Fin N) (Fin N) ℚ)
    (b : List ℚ) (solver : GMRES) (x0 : Vec N) (hb : b.length = N)
    (htol : tolSat solver.atol solver.rtol
      (dotProduct (listToVec N b hb) (listToVec N b hb))
      (dotProduct (listToVec N b hb - A.mulVec x0)
        (listToVec N b hb - A.mulVec x0)) = true) :
    linear_solve A b solver 1 x0 = .ok ⟨x0, .converged, 0⟩ := by
  rw [linear_solve, dif_pos hb, List.range_succ_eq_map]
  have hp0 : tolSat solver.atol solver.rtol
      (dotProduct ((1 : Matrix (Fin N) (Fin N) ℚ).mulVec (listToVec N b hb))
        ((1 : Matrix (Fin N) (Fin N) ℚ).mulVec (listToVec N b hb)))
      (dotProduct (presidual A 1 (listToVec N b hb) x0 0)
        (presidual A 1 (listToVec N b hb) x0 0)) = true := by
    rw [presidual, gmresSolution_zero, Matrix.one_mulVec, Matrix.one_mulVec]
    exact htol
  simp only [List.find?_cons, hp0]
  rw [gmresSolution_zero]

/-- C8: if the initial residual already satisfies the tolerance test the
solver converges with zero iterations and returns the initial guess; in
particular, solving with a zero right-hand side and the default zero
initial guess returns the zero vector, CONVERGED, zero iterations. -/
theorem init_converged_zero_steps :
    (∀ (N : Nat) (A : Matrix (Fin N) (Fin N) ℚ) (b : List ℚ) (solver : GMRES)
        (x0 : Vec N) (hb : b.length = N),
      tolSat solver.atol solver.rtol
          (dotProduct (listToVec N b hb) (listToVec N b hb))
          (dotProduct (listToVec N b hb - A.mulVec x0)
            (listToVec N b hb - A.mulVec x0)) = true →
        linear_solve A b solver 1 x0 = .ok ⟨x0, .converged, 0⟩) ∧
    (∀ (N : Nat) (A : Matrix (Fin N) (Fin N) ℚ) (solver : GMRES),
      linear_solve A (List.replicate N 0) solver 1 0 = .ok ⟨0, .converged, 0⟩) := by
  constructor
  · exact fun N A b solver x0 hb htol => solve_converged_at_init A b solver x0 hb htol
  · intro N A solver
    have hb : (List.replicate N (0 : ℚ)).length = N := List.length_replicate ..
    have hz : listToVec N (List.replicate N 0) hb = 0 := by
      funext i
      simp [listToVec]
    have htol : tolSat solver.atol solver.rtol
        (dotProduct (listToVec N (List.replicate N 0) hb)
          (listToVec N (List.replicate N 0) hb))
        (dotProduct (listToVec N (List.replicate N 0) hb - A.mulVec 0)
          (listToVec N (List.replicate N 0) hb - A.mulVec 0)) = true := by
      rw [hz, Matrix.mulVec_zero, sub_zero, Matrix.zero_dotProduct]
      rw [tolSat]
      apply decide_eq_true
      left
      nlinarith [sq_nonneg solver.atol, sq_nonneg solver.rtol]
    exact solve_converged_at_init A (List.replicate N 0) solver 0 hb htol

/-- Witness for C8 at a 1-dimensional system whose initial residual meets
the tolerance. -/
theorem init_converged_zero_steps_witness :
    (([(0 : ℚ)] : List ℚ).length = 1 ∧
      tolSat ((1 : ℚ)) ((1 : ℚ))
          (dotProduct (listToVec 1 [0] rfl) (listToVec 1 [0] rfl))
          (dotProduct (listToVec 1 [0] rfl - (1 : Matrix (Fin 1) (Fin 1) ℚ).mulVec 0)
            (listToVec 1 [0] rfl - (1 : Matrix (Fin 1) (Fin 1) ℚ).mulVec 0)) = true) ∧
      linear_solve (1 : Matrix (Fin 1) (Fin 1) ℚ) [0] ⟨1, 1, 3⟩ 1 0 =
        .ok ⟨0, .converged, 0⟩ := by
  have h1 : listToVec 1 [0] rfl = 0 := by
    funext i
    have hi : i = 0 := Subsingleton.elim i 0
    subst hi
    simp [listToVec]
  have htol : tolSat ((1 : ℚ)) ((1 : ℚ))
      (dotProduct (listToVec 1 [0] rfl) (listToVec 1 [0] rfl))
      (dotProduct (listToVec 1 [0] rfl - (1 : Matrix (Fin 1) (Fin 1) ℚ).mulVec 0)
        (listToVec 1 [0] rfl - (1 : Matrix (Fin 1) (Fin 1) ℚ).mulVec 0)) = true := by
    rw [h1, Matrix.mulVec_zero, sub_zero, Matrix.zero_dotProduct]
    rw [tolSat]
    apply decide_eq_true
    left
    norm_num
  exact ⟨⟨rfl, htol⟩,
    init_converged_zero_steps.1 1 1 [0] ⟨1, 1, 3⟩ 0 rfl htol⟩

/-- C5: with a well-dimensioned right-hand side the solve is total: it
always returns a result object (never an exception), and numerical
non-convergence — in particular exhausting `max_steps` — is surfaced only
as the status carried by that result. -/
theorem nonconvergence_is_data {N : Nat} (A Mp : Matrix (Fin N) (Fin N) ℚ)
    (b : List ℚ) (solver : GMRES) (x0 : Vec N) (hb : b.length = N) :
    ∃ res : SolveResult N, linear_solve A b solver Mp x0 = .ok res ∧
      (res.status = .converged ∨ res.status = .maxStepsReached) := by
  rcases hfind : (List.range (solver.max_steps + 1)).find?
      (fun k => tolSat solver.atol solver.rtol
        (dotProduct (Mp.mulVec (listToVec N b hb)) (Mp.mulVec (listToVec N b hb)))
        (dotProduct (presidual A Mp (listToVec N b hb) x0 k)
          (presidual A Mp (listToVec N b hb) x0 k))) with _ | k
  · exact ⟨⟨gmresSolution A Mp (listToVec N b hb) x0 solver.max_steps,
      .maxStepsReached, solver.max_steps⟩,
      by rw [linear_solve, dif_pos hb, hfind], Or.inr rfl⟩
  · exact ⟨⟨gmresSolution A Mp (listToVec N b hb) x0 k, .converged, k⟩,
      by rw [linear_solve, dif_pos hb, hfind], Or.inl rfl⟩

/-- Witness for C5: a 1-dimensional system with the zero operator, which
cannot converge for a nonzero right-hand side and zero tolerances. -/
theorem nonconvergence_is_data_witness :
    ([(1 : ℚ)] : List ℚ).length = 1 ∧
      ∃ res : SolveResult 1,
        linear_solve (0 : Matrix (Fin 1) (Fin 1) ℚ) [1] ⟨0, 0, 1⟩ 1 0 = .ok res ∧
          (res.status = .converged ∨ res.status = .maxStepsReached) :=
  ⟨rfl, nonconvergence_is_data 0 1 [1] ⟨0, 0, 1⟩ 0 rfl⟩

/-- C6: the preconditioner is the unguarded elementwise division by the
extracted diagonal, and it actually inverts the diagonal operator
(`x ↦ jac * x` elementwise) precisely when every diagonal entry is
nonzero; a zero (or absent, hence zero) diagonal entry makes the division
at that coordinate degenerate. -/
theorem preconditioner_requires_nonzero_diagonal {N : Nat} (jac : Vec N) :
    (∀ x : Vec N, ∀ i, precondFun jac x i = x i / jac i) ∧
      ((∀ x : Vec N, precondFun jac (fun i => jac i * x i) = x) ↔
        ∀ i, jac i ≠ 0) := by
  refine ⟨fun x i => rfl, ?_, ?_⟩
  · intro h i h0
    have hx : jac i * (1 : ℚ) / jac i = 1 := congrFun (h (fun _ => 1)) i
    rw [h0] at hx
    norm_num at hx
  · intro h x
    funext i
    show jac i * x i / jac i = x i
    rw [mul_comm, mul_div_assoc, div_self (h i), mul_one]

/-- C7: the registered tag returns `True` for every instance; it is purely
advisory and is never verified against the matrix, as shown by an operator
wrapping a matrix that is not positive semidefinite yet still carries the
tag. -/
theorem psd_tag_unconditional :
    (∀ op : SparseMatrixLinearOperator, is_positive_semidefinite op = true) ∧
      ∃ op : SparseMatrixLinearOperator,
        is_positive_semidefinite op = true ∧ ¬ op.matrix.isPSD := by
  refine ⟨fun op => rfl, ⟨⟨[0], [0], [-1], 1, 1⟩⟩, rfl, fun h => ?_⟩
  have hq := h (fun _ => 1)
  rw [BCOO.quadForm] at hq
  simp only [Finset.sum_range_one, one_mul, mul_one] at hq
  rw [BCOO.toMatrix, BCOO.entries] at hq
  simp [List.filter_cons, List.filter_nil] at hq
  norm_num at hq

/-! ### Orthogonalization and projection lemmas -/

lemma dot_self_nonneg {N : Nat} (v : Vec N) : 0 ≤ dotProduct v v :=
  Finset.sum_nonneg fun i _ => mul_self_nonneg (v i)

lemma listSpan_nil {N : Nat} : listSpan ([] : List (Vec N)) = ⊥ := by
  rw [listSpan]
  have h : {v : Vec N | v ∈ ([] : List (Vec N))} = ∅ := by
    ext v
    simp
  rw [h, Submodule.span_empty]

lemma listSpan_cons {N : Nat} (a : Vec N) (l : List (Vec N)) :
    listSpan (a :: l) = (Submodule.span ℚ {a}) ⊔ listSpan l := by
  rw [listSpan, listSpan]
  have h : {v : Vec N | v ∈ a :: l} = insert a {v | v ∈ l} := by
    ext v
    simp [List.mem_cons]
  rw [h, Submodule.span_insert]

lemma listSpan_append {N : Nat} (l₁ l₂ : List (Vec N)) :
    listSpan (l₁ ++ l₂) = listSpan l₁ ⊔ listSpan l₂ := by
  rw [listSpan, listSpan, listSpan]
  have h : {v : Vec N | v ∈ l₁ ++ l₂} = {v | v ∈ l₁} ∪ {v | v ∈ l₂} := by
    ext v
    simp [List.mem_append]
  rw [h, Submodule.span_union]

lemma mem_listSpan_of_mem {N : Nat} {l : List (Vec N)} {v : Vec N}
    (h : v ∈ l) : v ∈ listSpan l :=
  Submodule.subset_span h

lemma listSpan_mono {N : Nat} {l₁ l₂ : List (Vec N)}
    (h : ∀ v ∈ l₁, v ∈ l₂) : listSpan l₁ ≤ listSpan l₂ := by
  rw [listSpan]
  exact Submodule.span_le.mpr fun v hv => Submodule.subset_span (h v hv)

/-- A vector orthogonal to every element of a spanning set is orthogonal to
the whole span. -/
lemma dot_zero_of_mem_span {N : Nat} {s : Set (Vec N)} {r : Vec N}
    (h : ∀ w ∈ s, dotProduct r w = 0) :
    ∀ v ∈ Submodule.span ℚ s, dotProduct r v = 0 := by
  intro v hv
  induction hv using Submodule.span_induction with
  | mem w hw => exact h w hw
  | zero => exact dotProduct_zero r
  | add x y _ _ hx hy => rw [dotProduct_add, hx, hy, add_zero]
  | smul c x _ hx => rw [dotProduct_smul, hx, smul_zero]

/-- One reduction step leaves the image orthogonal to the pair reduced
against. -/
lemma reduceStep_snd_dot_self {N : Nat} (q aq : Vec N × Vec N) :
    dotProduct (reduceStep q aq).2 aq.2 = 0 := by
  rw [reduceStep]
  by_cases hγ : dotProduct aq.2 aq.2 = 0
  · rw [if_pos hγ]
    have h2 : aq.2 = 0 := dotProduct_self_eq_zero.mp hγ
    rw [h2, dotProduct_zero]
  · rw [if_neg hγ]
    show dotProduct (q.2 - (dotProduct q.2 aq.2 / dotProduct aq.2 aq.2) • aq.2) aq.2 = 0
    rw [sub_dotProduct, smul_dotProduct, smul_eq_mul, div_mul_cancel₀ _ hγ, sub_self]

/-- One reduction step preserves orthogonality of the image to any vector
orthogonal to both inputs. -/
lemma reduceStep_snd_dot_preserved {N : Nat} (q aq : Vec N × Vec N)
    (w : Vec N) (hq : dotProduct q.2 w = 0) (ha : dotProduct aq.2 w = 0) :
    dotProduct (reduceStep q aq).2 w = 0 := by
  rw [reduceStep]
  by_cases hγ : dotProduct aq.2 aq.2 = 0
  · rw [if_pos hγ]
    exact hq
  · rw [if_neg hγ]
    show dotProduct (q.2 - (dotProduct q.2 aq.2 / dotProduct aq.2 aq.2) • aq.2) w = 0
    rw [sub_dotProduct, smul_dotProduct, smul_eq_mul, ha, mul_zero, hq, sub_zero]

/-- Folding reduction steps preserves orthogonality of the image to a fixed
vector orthogonal to the start and to everything reduced against. -/
lemma foldl_reduceStep_dot_preserved {N : Nat} (acc : List (Vec N × Vec N))
    (q : Vec N × Vec N) (w : Vec N) (hq : dotProduct q.2 w = 0)
    (hacc : ∀ aq ∈ acc, dotProduct aq.2 w = 0) :
    dotProduct (acc.foldl reduceStep q).2 w = 0 := by
  induction acc generalizing q with
  | nil => exact hq
  | cons a rest ih =>
    rw [List.foldl_cons]
    exact ih (reduceStep q a)
      (reduceStep_snd_dot_preserved q a w hq (hacc a (List.mem_cons_self _ _)))
      (fun aq haq => hacc aq (List.mem_cons_of_mem a haq))

/-- After reducing against a pairwise-orthogonal accumulator, the image is
orthogonal to every accumulator image. -/
lemma reduceAgainst_orth {N : Nat} (acc : List (Vec N × Vec N))
    (p : Vec N × Vec N)
    (horth : (acc.map Prod.snd).Pairwise (fun u v => dotProduct u v = 0)) :
    ∀ aq ∈ acc, dotProduct (reduceAgainst acc p).2 aq.2 = 0 := by
  induction acc generalizing p with
  | nil => intro aq h; exact absurd h (List.not_mem_nil aq)
  | cons a rest ih =>
    rw [List.map_cons, List.pairwise_cons] at horth
    intro aq haq
    rcases List.mem_cons.mp haq with rfl | hmem
    · rw [reduceAgainst, List.foldl_cons]
      exact foldl_reduceStep_dot_preserved rest (reduceStep p aq) aq.2
        (reduceStep_snd_dot_self p aq)
        (fun x hx => by
          rw [dotProduct_comm]
          exact horth.1 x.2 (List.mem_map_of_mem Prod.snd hx))
    · rw [reduceAgainst, List.foldl_cons]
      exact ih (reduceStep p a) horth.2 aq hmem

/-- The Gram–Schmidt accumulation keeps the images pairwise orthogonal. -/
lemma gsAppend_orth {N : Nat} (acc ps : List (Vec N × Vec N))
    (horth : (acc.map Prod.snd).Pairwise (fun u v => dotProduct u v = 0)) :
    ((gsAppend acc ps).map Prod.snd).Pairwise (fun u v => dotProduct u v = 0) := by
  induction ps generalizing acc with
  | nil => exact horth
  | cons p ps ih =>
    rw [gsAppend]
    apply ih
    rw [List.map_append, List.pairwise_append]
    refine ⟨horth, by simp, ?_⟩
    intro u hu v hv
    rcases List.mem_map.mp hu with ⟨aq, haq, rfl⟩
    rcases List.mem_map.mp hv with ⟨bq, hbq, rfl⟩
    have hbq' : bq = reduceAgainst acc p := by
      rcases List.mem_singleton.mp hbq with rfl
      rfl
    subst hbq'
    rw [dotProduct_comm]
    exact reduceAgainst_orth acc p horth aq haq

/-- The operator-compatibility invariant (`image = A · preimage`) is
preserved by a reduction step. -/
lemma reduceStep_compat {N : Nat} (A : Matrix (Fin N) (Fin N) ℚ)
    (q aq : Vec N × Vec N) (hq : q.2 = A.mulVec q.1)
    (ha : aq.2 = A.mulVec aq.1) :
    (reduceStep q aq).2 = A.mulVec (reduceStep q aq).1 := by
  rw [reduceStep]
  by_cases hγ : dotProduct aq.2 aq.2 = 0
  · rw [if_pos hγ]
    exact hq
  · rw [if_neg hγ]
    show q.2 - (dotProduct q.2 aq.2 / dotProduct aq.2 aq.2) • aq.2 =
      A.mulVec (q.1 - (dotProduct q.2 aq.2 / dotProduct aq.2 aq.2) • aq.1)
    rw [Matrix.mulVec_sub, Matrix.mulVec_smul, hq, ha]

/-- The compatibility invariant is preserved by folded reduction. -/
lemma foldl_reduceStep_compat {N : Nat} (A : Matrix (Fin N) (Fin N) ℚ)
    (acc : List (Vec N × Vec N)) (q : Vec N × Vec N)
    (hacc : ∀ aq ∈ acc, aq.2 = A.mulVec aq.1) (hq : q.2 = A.mulVec q.1) :
    (acc.foldl reduceStep q).2 = A.mulVec (acc.foldl reduceStep q).1 := by
  induction acc generalizing q with
  | nil => exact hq
  | cons a rest ih =>
    rw [List.foldl_cons]
    exact ih (reduceStep q a) (fun aq haq => hacc aq (List.mem_cons_of_mem a haq))
      (reduceStep_compat A q a hq (hacc a (List.mem_cons_self _ _)))

/-- The compatibility invariant holds for every pair produced by the
Gram–Schmidt accumulation. -/
lemma gsAppend_compat {N : Nat} (A : Matrix (Fin N) (Fin N) ℚ)
    (acc ps : List (Vec N × Vec N))
    (hacc : ∀ aq ∈ acc, aq.2 = A.mulVec aq.1)
    (hps : ∀ p ∈ ps, p.2 = A.mulVec p.1) :
    ∀ uq ∈ gsAppend acc ps, uq.2 = A.mulVec uq.1 := by
  induction ps generalizing acc with
  | nil => exact hacc
  | cons p ps ih =>
    rw [gsAppend]
    apply ih
    · intro aq haq
      rcases List.mem_append.mp haq with h | h
      · exact hacc aq h
      · rcases List.mem_singleton.mp h with rfl
        exact foldl_reduceStep_compat A acc p hacc
          (hps p (List.mem_cons_self _ _))
    · exact fun q hq => hps q (List.mem_cons_of_mem p hq)

/-- The image drift of a folded reduction lies in the span of the
accumulator images. -/
lemma foldl_reduceStep_snd_sub_mem {N : Nat} (acc : List (Vec N × Vec N))
    (q : Vec N × Vec N) :
    (acc.foldl reduceStep q).2 - q.2 ∈ listSpan (acc.map Prod.snd) := by
  induction acc generalizing q with
  | nil =>
    rw [List.foldl_nil, sub_self]
    exact Submodule.zero_mem _
  | cons a rest ih =>
    rw [List.foldl_cons]
    have h1 : (rest.foldl reduceStep (reduceStep q a)).2 - (reduceStep q a).2 ∈
        listSpan (rest.map Prod.snd) := ih (reduceStep q a)
    have h2 : (reduceStep q a).2 - q.2 ∈ listSpan ((a :: rest).map Prod.snd) := by
      rw [reduceStep]
      by_cases hγ : dotProduct a.2 a.2 = 0
      · rw [if_pos hγ, sub_self]
        exact Submodule.zero_mem _
      · rw [if_neg hγ]
        show (q.2 - (dotProduct q.2 a.2 / dotProduct a.2 a.2) • a.2) - q.2 ∈ _
        have : (q.2 - (dotProduct q.2 a.2 / dotProduct a.2 a.2) • a.2) - q.2 =
            -((dotProduct q.2 a.2 / dotProduct a.2 a.2) • a.2) := by ring
        rw [this]
        exact Submodule.neg_mem _ (Submodule.smul_mem _ _
          (mem_listSpan_of_mem (by simp)))
    have hle : listSpan (rest.map Prod.snd) ≤ listSpan ((a :: rest).map Prod.snd) :=
      listSpan_mono (fun v hv => by simp [hv])
    have := Submodule.add_mem _ (hle h1) h2
    simpa using this

/-- Replacing one spanning vector by another with the same drift modulo the
remaining vectors does not change the span. -/
lemma listSpan_replace {N : Nat} (l : List (Vec N)) (u v : Vec N) (t : List (Vec N))
    (h : u - v ∈ listSpan l) :
    listSpan (l ++ u :: t) = listSpan (l ++ v :: t) := by
  rw [listSpan_append, listSpan_append, listSpan_cons, listSpan_cons]
  have key : ∀ x y : Vec N, x - y ∈ listSpan l →
      listSpan l ⊔ (Submodule.span ℚ {x} ⊔ listSpan t) ≤
        listSpan l ⊔ (Submodule.span ℚ {y} ⊔ listSpan t) := by
    intro x y hxy
    apply sup_le
    · exact le_sup_left
    · apply sup_le
      · rw [Submodule.span_singleton_le_iff_mem]
        have hx : x = (x - y) + y := by ring
        rw [hx]
        exact Submodule.add_mem _ (Submodule.mem_sup_left hxy)
          (Submodule.mem_sup_right
            (Submodule.mem_sup_left (Submodule.mem_span_singleton_self y)))
      · exact le_sup_of_le_right le_sup_right
  apply le_antisymm
  · exact key u v h
  · exact key v u (by
      have : v - u = -(u - v) := by ring
      rw [this]
      exact Submodule.neg_mem _ h)

/-- The Gram–Schmidt accumulation preserves the span of the images. -/
lemma gsAppend_span {N : Nat} (acc ps : List (Vec N × Vec N)) :
    listSpan ((gsAppend acc ps).map Prod.snd) =
      listSpan (acc.map Prod.snd ++ ps.map Prod.snd) := by
  induction ps generalizing acc with
  | nil => simp [gsAppend]
  | cons p ps ih =>
    rw [gsAppend, ih]
    have hdrift : (reduceAgainst acc p).2 - p.2 ∈ listSpan (acc.map Prod.snd) :=
      foldl_reduceStep_snd_sub_mem acc p
    calc listSpan ((acc ++ [reduceAgainst acc p]).map Prod.snd ++ ps.map Prod.snd)
        = listSpan (acc.map Prod.snd ++ (reduceAgainst acc p).2 :: ps.map Prod.snd) := by
          rw [List.map_append]
          simp
      _ = listSpan (acc.map Prod.snd ++ p.2 :: ps.map Prod.snd) :=
          listSpan_replace _ _ _ _ hdrift
      _ = listSpan (acc.map Prod.snd ++ (p :: ps).map Prod.snd) := by
          rw [List.map_cons]

lemma projImage_nil {N : Nat} (r0 : Vec N) : projImage r0 [] = 0 :=
  rfl

lemma projImage_cons {N : Nat} (r0 : Vec N) (p : Vec N × Vec N)
    (rest : List (Vec N × Vec N)) :
    projImage r0 (p :: rest) = projCoeff r0 p • p.2 + projImage r0 rest :=
  rfl

lemma solUpdate_nil {N : Nat} (r0 : Vec N) : solUpdate r0 [] = 0 :=
  rfl

lemma solUpdate_cons {N : Nat} (r0 : Vec N) (p : Vec N × Vec N)
    (rest : List (Vec N × Vec N)) :
    solUpdate r0 (p :: rest) = projCoeff r0 p • p.1 + solUpdate r0 rest :=
  rfl

/-- The projected image lies in the span of the images. -/
lemma projImage_mem_span {N : Nat} (r0 : Vec N) (pairs : List (Vec N × Vec N)) :
    projImage r0 pairs ∈ listSpan (pairs.map Prod.snd) := by
  induction pairs with
  | nil =>
    rw [projImage_nil]
    exact Submodule.zero_mem _
  | cons p rest ih =>
    rw [projImage_cons]
    apply Submodule.add_mem
    · exact Submodule.smul_mem _ _ (mem_listSpan_of_mem (by simp))
    · have hle : listSpan (rest.map Prod.snd) ≤ listSpan ((p :: rest).map Prod.snd) :=
        listSpan_mono (fun v hv => by simp [hv])
      exact hle ih

/-- The projection along images all orthogonal to `w` is orthogonal to `w`. -/
lemma projImage_dot_zero {N : Nat} (r0 w : Vec N) (pairs : List (Vec N × Vec N))
    (h : ∀ uq ∈ pairs, dotProduct uq.2 w = 0) :
    dotProduct (projImage r0 pairs) w = 0 := by
  induction pairs with
  | nil => simp [projImage_nil]
  | cons p rest ih =>
    rw [projImage_cons, add_dotProduct]
    rw [smul_dotProduct, h p (List.mem_cons_self _ _), smul_zero]
    rw [zero_add]
    exact ih (fun uq huq => h uq (List.mem_cons_of_mem p huq))

/-- With pairwise orthogonal images, the residual of the projection is
orthogonal to every image. -/
lemma residual_dot_zero {N : Nat} (r0 : Vec N) (pairs : List (Vec N × Vec N))
    (horth : (pairs.map Prod.snd).Pairwise (fun u v => dotProduct u v = 0)) :
    ∀ uq ∈ pairs, dotProduct (r0 - projImage r0 pairs) uq.2 = 0 := by
  induction pairs with
  | nil => intro uq h; exact absurd h (List.not_mem_nil uq)
  | cons p rest ih =>
    rw [List.map_cons, List.pairwise_cons] at horth
    intro uq huq
    rw [projImage_cons]
    rcases List.mem_cons.mp huq with rfl | hmem
    · have hrest : dotProduct (projImage r0 rest) uq.2 = 0 :=
        projImage_dot_zero r0 uq.2 rest (fun x hx => by
          rw [dotProduct_comm]
          exact horth.1 x.2 (List.mem_map_of_mem Prod.snd hx))
      rw [sub_dotProduct, add_dotProduct, hrest, add_zero,
        smul_dotProduct, smul_eq_mul]
      rw [projCoeff]
      by_cases hγ : dotProduct uq.2 uq.2 = 0
      · rw [if_pos hγ]
        have h2 : uq.2 = 0 := dotProduct_self_eq_zero.mp hγ
        rw [h2, dotProduct_zero, zero_mul, sub_zero]
      · rw [if_neg hγ, div_mul_cancel₀ _ hγ, sub_self]
    · have heq : r0 - (projCoeff r0 p • p.2 + projImage r0 rest) =
          (r0 - projImage r0 rest) - projCoeff r0 p • p.2 := by ring
      rw [heq, sub_dotProduct, smul_dotProduct, smul_eq_mul]
      rw [horth.1 uq.2 (List.mem_map_of_mem Prod.snd hmem), mul_zero, sub_zero]
      exact ih horth.2 uq hmem

/-- If the target lies in the span of pairwise-orthogonal images, the
projection reproduces it exactly. -/
lemma residual_eq_zero {N : Nat} (r0 : Vec N) (pairs : List (Vec N × Vec N))
    (horth : (pairs.map Prod.snd).Pairwise (fun u v => dotProduct u v = 0))
    (hr0 : r0 ∈ listSpan (pairs.map Prod.snd)) :
    r0 - projImage r0 pairs = 0 := by
  have hres : r0 - projImage r0 pairs ∈ listSpan (pairs.map Prod.snd) :=
    Submodule.sub_mem _ hr0 (projImage_mem_span r0 pairs)
  have horthall : ∀ w ∈ {v : Vec N | v ∈ pairs.map Prod.snd},
      dotProduct (r0 - projImage r0 pairs) w = 0 := by
    intro w hw
    rcases List.mem_map.mp hw with ⟨uq, huq, rfl⟩
    exact residual_dot_zero r0 pairs horth uq huq
  have hself : dotProduct (r0 - projImage r0 pairs) (r0 - projImage r0 pairs) = 0 :=
    dot_zero_of_mem_span horthall _ hres
  exact dotProduct_self_eq_zero.mp hself

/-- Applying the operator to the reconstructed solution update gives the
projected image, by the compatibility invariant. -/
lemma mulVec_solUpdate {N : Nat} (A : Matrix (Fin N) (Fin N) ℚ) (r0 : Vec N)
    (pairs : List (Vec N × Vec N))
    (hcompat : ∀ uq ∈ pairs, uq.2 = A.mulVec uq.1) :
    A.mulVec (solUpdate r0 pairs) = projImage r0 pairs := by
  induction pairs with
  | nil =>
    rw [solUpdate_nil, projImage_nil, Matrix.mulVec_zero]
  | cons p rest ih =>
    rw [solUpdate_cons, projImage_cons, Matrix.mulVec_add, Matrix.mulVec_smul]
    rw [← hcompat p (List.mem_cons_self _ _)]
    congr 1
    exact ih (fun uq huq => hcompat uq (List.mem_cons_of_mem p huq))

/-! ### Krylov subspace saturation -/

lemma krylovVecs_succ {N : Nat} (A : Matrix (Fin N) (Fin N) ℚ) (r0 : Vec N)
    (k : Nat) :
    krylovVecs A r0 (k + 1) = krylovVecs A r0 k ++ [(A ^ k).mulVec r0] := by
  rw [krylovVecs, krylovVecs, List.range_succ, List.map_append, List.map_singleton]

lemma mem_krylovVecs {N : Nat} (A : Matrix (Fin N) (Fin N) ℚ) (r0 : Vec N)
    {i k : Nat} (h : i < k) : (A ^ i).mulVec r0 ∈ krylovVecs A r0 k := by
  rw [krylovVecs]
  exact List.mem_map_of_mem _ (List.mem_range.mpr h)

lemma krylov_span_mono {N : Nat} (A : Matrix (Fin N) (Fin N) ℚ) (r0 : Vec N)
    {j t : Nat} (h : j ≤ t) :
    listSpan (krylovVecs A r0 j) ≤ listSpan (krylovVecs A r0 t) := by
  apply listSpan_mono
  intro v hv
  rw [krylovVecs] at hv ⊢
  rcases List.mem_map.mp hv with ⟨i, hi, rfl⟩
  exact List.mem_map_of_mem _ (List.mem_range.mpr
    (Nat.lt_of_lt_of_le (List.mem_range.mp hi) h))

/-- Pushing a list span through the linear map of a matrix. -/
lemma map_mulVecLin_listSpan {N : Nat} (A : Matrix (Fin N) (Fin N) ℚ)
    (l : List (Vec N)) :
    Submodule.map (Matrix.mulVecLin A) (listSpan l) =
      listSpan (l.map (fun v => A.mulVec v)) := by
  rw [listSpan, listSpan, Submodule.map_span]
  congr 1
  ext v
  constructor
  · rintro ⟨w, hw, rfl⟩
    exact List.mem_map.mpr ⟨w, hw, (Matrix.mulVecLin_apply A w)⟩
  · intro hv
    rcases List.mem_map.mp hv with ⟨w, hw, rfl⟩
    exact ⟨w, hw, Matrix.mulVecLin_apply A w⟩

lemma map_krylov_span_le {N : Nat} (A : Matrix (Fin N) (Fin N) ℚ) (r0 : Vec N)
    (j : Nat) :
    Submodule.map (Matrix.mulVecLin A) (listSpan (krylovVecs A r0 j)) ≤
      listSpan (krylovVecs A r0 (j + 1)) := by
  rw [map_mulVecLin_listSpan]
  apply listSpan_mono
  intro v hv
  rcases List.mem_map.mp hv with ⟨w, hw, rfl⟩
  rw [krylovVecs] at hw
  rcases List.mem_map.mp hw with ⟨i, hi, rfl⟩
  rw [Matrix.mulVec_mulVec, ← pow_succ']
  exact mem_krylovVecs A r0 (Nat.succ_lt_succ (List.mem_range.mp hi))

/-- Once the Krylov span stops growing, all later operator powers of `r0`
stay inside it. -/
lemma krylov_powers_mem_of_stable {N : Nat} (A : Matrix (Fin N) (Fin N) ℚ)
    (r0 : Vec N) (j : Nat)
    (hstab : listSpan (krylovVecs A r0 (j + 1)) = listSpan (krylovVecs A r0 j)) :
    ∀ t, (A ^ (j + t)).mulVec r0 ∈ listSpan (krylovVecs A r0 j) := by
  intro t
  induction t with
  | zero =>
    rw [← hstab]
    exact mem_listSpan_of_mem (mem_krylovVecs A r0 (Nat.lt_succ_self j))
  | succ t ih =>
    have : (A ^ (j + (t + 1))).mulVec r0 =
        A.mulVec ((A ^ (j + t)).mulVec r0) := by
      rw [Matrix.mulVec_mulVec, ← pow_succ']
      rfl
    rw [this, ← hstab]
    apply map_krylov_span_le A r0 j
    exact Submodule.mem_map_of_mem ih

/-- Once the Krylov span stops growing it is stable at every later step. -/
lemma krylov_span_stable {N : Nat} (A : Matrix (Fin N) (Fin N) ℚ)
    (r0 : Vec N) (j : Nat)
    (hstab : listSpan (krylovVecs A r0 (j + 1)) = listSpan (krylovVecs A r0 j)) :
    ∀ t, j ≤ t → listSpan (krylovVecs A r0 t) = listSpan (krylovVecs A r0 j) := by
  intro t hjt
  apply le_antisymm
  · rw [listSpan]
    apply Submodule.span_le.mpr
    intro v hv
    rcases List.mem_map.mp hv with ⟨i, hi, rfl⟩
    rcases Nat.lt_or_ge i j with hij | hij
    · exact mem_listSpan_of_mem (mem_krylovVecs A r0 hij)
    · have : i = j + (i - j) := by omega
      rw [this]
      exact krylov_powers_mem_of_stable A r0 j hstab (i - j)
  · exact krylov_span_mono A r0 hjt

/-- Pigeonhole: among the first `N + 1` Krylov spans in dimension `N`, two
consecutive ones coincide. -/
lemma exists_krylov_stabilization {N : Nat} (A : Matrix (Fin N) (Fin N) ℚ)
    (r0 : Vec N) :
    ∃ j ≤ N, listSpan (krylovVecs A r0 (j + 1)) = listSpan (krylovVecs A r0 j) := by
  by_contra hcon
  push_neg at hcon
  have hstrict : ∀ j, j ≤ N →
      listSpan (krylovVecs A r0 j) < listSpan (krylovVecs A r0 (j + 1)) := by
    intro j hj
    exact lt_of_le_of_ne (krylov_span_mono A r0 (Nat.le_succ j))
      (fun he => hcon j hj he.symm)
  have hrank : ∀ j, j ≤ N + 1 →
      j ≤ Module.finrank ℚ (listSpan (krylovVecs A r0 j)) := by
    intro j
    induction j with
    | zero => intro _; exact Nat.zero_le _
    | succ j ih =>
      intro hj
      have h1 : j ≤ Module.finrank ℚ (listSpan (krylovVecs A r0 j)) :=
        ih (Nat.le_of_succ_le hj)
      have h2 : Module.finrank ℚ (listSpan (krylovVecs A r0 j)) <
          Module.finrank ℚ (listSpan (krylovVecs A r0 (j + 1))) :=
        Submodule.finrank_lt_finrank_of_lt (hstrict j (Nat.lt_succ_iff.mp hj))
      omega
  have hbig := hrank (N + 1) (Nat.le_refl _)
  have hle : Module.finrank ℚ (listSpan (krylovVecs A r0 (N + 1))) ≤
      Module.finrank ℚ (Vec N) := Submodule.finrank_le _
  rw [Module.finrank_fin_fun] at hle
  omega

/-- Positive definiteness forces injectivity of the operator. -/
lemma mulVecLin_injective_of_posdef {N : Nat} (A : Matrix (Fin N) (Fin N) ℚ)
    (hpd : ∀ x : Vec N, x ≠ 0 → 0 < dotProduct x (A.mulVec x)) :
    Function.Injective (Matrix.mulVecLin A) := by
  intro x y hxy
  by_contra hne
  have hsub : x - y ≠ 0 := sub_ne_zero.mpr hne
  have h0 : A.mulVec (x - y) = 0 := by
    rw [Matrix.mulVec_sub]
    have hx : A.mulVec x = A.mulVec y := by
      rw [← Matrix.mulVecLin_apply, ← Matrix.mulVecLin_apply, hxy]
    rw [hx, sub_self]
  have := hpd (x - y) hsub
  rw [h0, dotProduct_zero] at this
  exact lt_irrefl 0 this

/-- An injective operator maps a submodule it stabilizes onto itself. -/
lemma map_eq_of_le_of_injective {N : Nat} (A : Matrix (Fin N) (Fin N) ℚ)
    (hinj : Function.Injective (Matrix.mulVecLin A))
    (p : Submodule ℚ (Vec N))
    (hle : Submodule.map (Matrix.mulVecLin A) p ≤ p) :
    Submodule.map (Matrix.mulVecLin A) p = p := by
  apply Submodule.eq_of_le_of_finrank_le hle
  exact le_of_eq
    (LinearEquiv.finrank_eq (Submodule.equivMapOfInjective _ hinj p))

/-- For an injective operator, `r0` lies in the span of the images of its
first `N` Krylov vectors. -/
lemma r0_mem_image_krylov {N : Nat} (A : Matrix (Fin N) (Fin N) ℚ)
    (hinj : Function.Injective (Matrix.mulVecLin A)) (r0 : Vec N) :
    r0 ∈ listSpan ((krylovVecs A r0 N).map (fun v => A.mulVec v)) := by
  by_cases hr0 : r0 = 0
  · subst hr0
    exact Submodule.zero_mem _
  · obtain ⟨j, hjN, hstab⟩ := exists_krylov_stabilization A r0
    have hr0j : r0 ∈ listSpan (krylovVecs A r0 (j + 1)) := by
      have h0 : ((A : Matrix (Fin N) (Fin N) ℚ) ^ 0).mulVec r0 = r0 := by
        rw [pow_zero, Matrix.one_mulVec]
      have hmem := mem_krylovVecs A r0 (Nat.succ_pos j)
      rw [h0] at hmem
      exact mem_listSpan_of_mem hmem
    rw [hstab] at hr0j
    have hmaple : Submodule.map (Matrix.mulVecLin A) (listSpan (krylovVecs A r0 j)) ≤
        listSpan (krylovVecs A r0 j) :=
      le_trans (map_krylov_span_le A r0 j) (le_of_eq hstab)
    have hmapeq := map_eq_of_le_of_injective A hinj _ hmaple
    have hr0map : r0 ∈ Submodule.map (Matrix.mulVecLin A)
        (listSpan (krylovVecs A r0 j)) := by
      rw [hmapeq]
      exact hr0j
    have hmono : Submodule.map (Matrix.mulVecLin A) (listSpan (krylovVecs A r0 j)) ≤
        Submodule.map (Matrix.mulVecLin A) (listSpan (krylovVecs A r0 N)) :=
      Submodule.map_mono (krylov_span_mono A r0 hjN)
    have := hmono hr0map
    rwa [map_mulVecLin_listSpan] at this

/-- The unpreconditioned GMRES iterate, unfolded. -/
lemma gmresSolution_one {N : Nat} (A : Matrix (Fin N) (Fin N) ℚ)
    (b x0 : Vec N) (k : Nat) :
    gmresSolution A 1 b x0 k =
      x0 + solUpdate (b - A.mulVec x0)
        (gramSchmidtPairs ((krylovVecs A (b - A.mulVec x0) k).map
          (fun v => (v, A.mulVec v)))) := by
  rw [gmresSolution]
  simp only [Matrix.one_mulVec, one_mul]

/-- In exact arithmetic, an injective operator is solved exactly by the
`N`-th GMRES iterate: the residual vanishes. -/
lemma gmres_residual_zero {N : Nat} (A : Matrix (Fin N) (Fin N) ℚ)
    (hinj : Function.Injective (Matrix.mulVecLin A)) (b x0 : Vec N) :
    b - A.mulVec (gmresSolution A 1 b x0 N) = 0 := by
  rw [gmresSolution_one]
  have hcompat : ∀ uq ∈ gramSchmidtPairs
      ((krylovVecs A (b - A.mulVec x0) N).map (fun v => (v, A.mulVec v))),
      uq.2 = A.mulVec uq.1 := by
    apply gsAppend_compat A []
    · intro aq haq
      exact absurd haq (List.not_mem_nil aq)
    · intro p hp
      rcases List.mem_map.mp hp with ⟨v, _, rfl⟩
      rfl
  have horth := gsAppend_orth ([] : List (Vec N × Vec N))
    ((krylovVecs A (b - A.mulVec x0) N).map (fun v => (v, A.mulVec v)))
    (by simp)
  have hspan := gsAppend_span ([] : List (Vec N × Vec N))
    ((krylovVecs A (b - A.mulVec x0) N).map (fun v => (v, A.mulVec v)))
  rw [List.map_nil, List.nil_append] at hspan
  have hsnds : ((krylovVecs A (b - A.mulVec x0) N).map
      (fun v => (v, A.mulVec v))).map Prod.snd =
      (krylovVecs A (b - A.mulVec x0) N).map (fun v => A.mulVec v) := by
    rw [List.map_map]
    rfl
  have hr0mem : b - A.mulVec x0 ∈ listSpan ((gramSchmidtPairs
      ((krylovVecs A (b - A.mulVec x0) N).map (fun v => (v, A.mulVec v)))).map
        Prod.snd) := by
    rw [gramSchmidtPairs] at *
    rw [hspan, hsnds]
    exact r0_mem_image_krylov A hinj (b - A.mulVec x0)
  have hres := residual_eq_zero (b - A.mulVec x0) _ horth hr0mem
  have heq : b - A.mulVec (x0 + solUpdate (b - A.mulVec x0)
      (gramSchmidtPairs ((krylovVecs A (b - A.mulVec x0) N).map
        (fun v => (v, A.mulVec v))))) =
      (b - A.mulVec x0) - projImage (b - A.mulVec x0)
        (gramSchmidtPairs ((krylovVecs A (b - A.mulVec x0) N).map
          (fun v => (v, A.mulVec v)))) := by
    rw [Matrix.mulVec_add, mulVec_solUpdate A _ _ hcompat]
    abel
  rw [heq]
  exact hres

/-- C10: for a symmetric positive-definite operator of dimension `N`, GMRES
without preconditioning reaches the tolerance within at most `N` iterations
in exact arithmetic: the `N`-step residual is exactly zero, and the solver
(with any iteration budget of at least `N`) reports convergence in at most
`N` steps. -/
theorem gmres_spd_converges_within_dimension {N : Nat}
    (A : Matrix (Fin N) (Fin N) ℚ) (hA : IsSPDMatrix A) (b : List ℚ)
    (solver : GMRES) (hb : b.length = N) (hms : N ≤ solver.max_steps) :
    presidual A 1 (listToVec N b hb) 0 N = 0 ∧
      ∃ res : SolveResult N, linear_solve A b solver 1 0 = .ok res ∧
        res.status = .converged ∧ res.steps ≤ N := by
  have hinj := mulVecLin_injective_of_posdef A hA.2
  have hres0 : presidual A 1 (listToVec N b hb) 0 N = 0 := by
    rw [presidual, Matrix.one_mulVec]
    exact gmres_residual_zero A hinj (listToVec N b hb) 0
  refine ⟨hres0, ?_⟩
  have hpredN : (fun k => tolSat solver.atol solver.rtol
      (dotProduct ((1 : Matrix (Fin N) (Fin N) ℚ).mulVec (listToVec N b hb))
        ((1 : Matrix (Fin N) (Fin N) ℚ).mulVec (listToVec N b hb)))
      (dotProduct (presidual A 1 (listToVec N b hb) 0 k)
        (presidual A 1 (listToVec N b hb) 0 k))) N = true := by
    show tolSat _ _ _ _ = true
    rw [hres0, dotProduct_zero, tolSat]
    apply decide_eq_true
    left
    have hB := dot_self_nonneg
      ((1 : Matrix (Fin N) (Fin N) ℚ).mulVec (listToVec N b hb))
    nlinarith [sq_nonneg solver.atol, sq_nonneg solver.rtol,
      mul_nonneg (sq_nonneg solver.rtol) hB]
  have hfind : ∃ k ≤ N, (List.range (solver.max_steps + 1)).find?
      (fun k => tolSat solver.atol solver.rtol
        (dotProduct ((1 : Matrix (Fin N) (Fin N) ℚ).mulVec (listToVec N b hb))
          ((1 : Matrix (Fin N) (Fin N) ℚ).mulVec (listToVec N b hb)))
        (dotProduct (presidual A 1 (listToVec N b hb) 0 k)
          (presidual A 1 (listToVec N b hb) 0 k))) = some k := by
    have hrange : List.range (solver.max_steps + 1) =
        List.range (N + 1) ++
          (List.range (solver.max_steps - N)).map (fun x => (N + 1) + x) := by
      rw [← List.range_add]
      congr 1
      omega
    rw [hrange, List.find?_append]
    rcases ho : (List.range (N + 1)).find?
        (fun k => tolSat solver.atol solver.rtol
          (dotProduct ((1 : Matrix (Fin N) (Fin N) ℚ).mulVec (listToVec N b hb))
            ((1 : Matrix (Fin N) (Fin N) ℚ).mulVec (listToVec N b hb)))
          (dotProduct (presidual A 1 (listToVec N b hb) 0 k)
            (presidual A 1 (listToVec N b hb) 0 k))) with _ | k
    · exfalso
      have hsome : ((List.range (N + 1)).find?
          (fun k => tolSat solver.atol solver.rtol
            (dotProduct ((1 : Matrix (Fin N) (Fin N) ℚ).mulVec (listToVec N b hb))
              ((1 : Matrix (Fin N) (Fin N) ℚ).mulVec (listToVec N b hb)))
            (dotProduct (presidual A 1 (listToVec N b hb) 0 k)
              (presidual A 1 (listToVec N b hb) 0 k)))).isSome := by
        rw [List.find?_isSome]
        exact ⟨N, List.mem_range.mpr (Nat.lt_succ_self N), hpredN⟩
      rw [ho] at hsome
      exact Bool.noConfusion hsome
    · refine ⟨k, ?_, ?_⟩
      · have hk := List.mem_of_find?_eq_some ho
        exact Nat.lt_succ_iff.mp (List.mem_range.mp hk)
      · rfl
  obtain ⟨k, hkN, hfind⟩ := hfind
  refine ⟨⟨gmresSolution A 1 (listToVec N b hb) 0 k, .converged, k⟩, ?_, rfl, hkN⟩
  rw [linear_solve, dif_pos hb, hfind]

/-- Witness for C10: the 2-by-2 tridiagonal Laplacian, which is symmetric
positive definite. -/
theorem gmres_spd_converges_within_dimension_witness :
    (IsSPDMatrix !![(2 : ℚ), -1; -1, 2] ∧
        ([(1 : ℚ), 0] : List ℚ).length = 2 ∧
        2 ≤ (⟨0, 0, 2⟩ : GMRES).max_steps) ∧
      (presidual !![(2 : ℚ), -1; -1, 2] 1 (listToVec 2 [1, 0] rfl) 0 2 = 0 ∧
        ∃ res : SolveResult 2,
          linear_solve !![(2 : ℚ), -1; -1, 2] [1, 0] ⟨0, 0, 2⟩ 1 0 = .ok res ∧
            res.status = .converged ∧ res.steps ≤ 2) := by
  have hspd : IsSPDMatrix !![(2 : ℚ), -1; -1, 2] := by
    constructor
    · show Matrix.transpose _ = _
      ext i j
      fin_cases i <;> fin_cases j <;>
        simp [Matrix.transpose_apply]
    · intro x hx
      have hsum : dotProduct x ((!![(2 : ℚ), -1; -1, 2]).mulVec x) =
          x 0 * (2 * x 0 + (-1) * x 1) + x 1 * ((-1) * x 0 + 2 * x 1) := by
        simp [Matrix.mulVec, dotProduct, Fin.sum_univ_two]
      rw [hsum]
      have hcases : x 0 ≠ 0 ∨ x 1 ≠ 0 := by
        by_contra hcon
        push_neg at hcon
        apply hx
        funext i
        fin_cases i
        · exact hcon.1
        · exact hcon.2
      rcases hcases with h | h
      · nlinarith [mul_self_pos.mpr h, sq_nonneg (x 0 - x 1), sq_nonneg (x 1)]
      · nlinarith [mul_self_pos.mpr h, sq_nonneg (x 0 - x 1), sq_nonneg (x 0)]
  exact ⟨⟨hspd, rfl, by decide⟩,
    gmres_spd_converges_within_dimension !![(2 : ℚ), -1; -1, 2] hspd
      [1, 0] ⟨0, 0, 2⟩ rfl (by decide)⟩

/-! ### Scalar preconditioners are GMRES no-ops

A left preconditioner that is a nonzero scalar multiple of the identity
rescales every Krylov vector but leaves the Krylov subspace, the projection
coefficients and hence every GMRES iterate unchanged. This is the mechanism
behind the notebook's Jacobi preconditioner being a no-op: the Poisson
matrix has constant diagonal `4`, so `x / jacobi` is `(1/4) • x`. -/

lemma scalePair_snd_dot {N : Nat} (c μ ν : ℚ) (p q : Vec N × Vec N) :
    dotProduct (scalePair c μ p).2 (scalePair c ν q).2 =
      (c * μ) * ((c * ν) * dotProduct p.2 q.2) := by
  show dotProduct ((c * μ) • p.2) ((c * ν) • q.2) = _
  rw [smul_dotProduct, dotProduct_smul, smul_eq_mul, smul_eq_mul]

/-- A modified Gram–Schmidt step commutes with pair rescaling. -/
lemma reduceStep_scale {N : Nat} (c μ ν : ℚ) (hc : c ≠ 0) (hν : ν ≠ 0)
    (q a : Vec N × Vec N) :
    reduceStep (scalePair c μ q) (scalePair c ν a) =
      scalePair c μ (reduceStep q a) := by
  rw [reduceStep, reduceStep]
  have hcond : dotProduct (scalePair c ν a).2 (scalePair c ν a).2 =
      (c * ν) * ((c * ν) * dotProduct a.2 a.2) := scalePair_snd_dot c ν ν a a
  by_cases hγ : dotProduct a.2 a.2 = 0
  · rw [if_pos (by rw [hcond, hγ]; ring), if_pos hγ]
  · have hcν : c * ν ≠ 0 := mul_ne_zero hc hν
    rw [if_neg (by
        rw [hcond]
        exact mul_ne_zero hcν (mul_ne_zero hcν hγ)),
      if_neg hγ]
    have hcoef : dotProduct (scalePair c μ q).2 (scalePair c ν a).2 /
        dotProduct (scalePair c ν a).2 (scalePair c ν a).2 =
        (μ / ν) * (dotProduct q.2 a.2 / dotProduct a.2 a.2) := by
      rw [scalePair_snd_dot, hcond]
      field_simp
      ring
    rw [hcoef]
    have hsc1 : (μ / ν * (dotProduct q.2 a.2 / dotProduct a.2 a.2)) * ν =
        μ * (dotProduct q.2 a.2 / dotProduct a.2 a.2) := by
      field_simp
      ring
    have hsc2 : (μ / ν * (dotProduct q.2 a.2 / dotProduct a.2 a.2)) * (c * ν) =
        (c * μ) * (dotProduct q.2 a.2 / dotProduct a.2 a.2) := by
      field_simp
      ring
    apply Prod.ext
    · show μ • q.1 -
          (μ / ν * (dotProduct q.2 a.2 / dotProduct a.2 a.2)) • (ν • a.1) =
        μ • (q.1 - (dotProduct q.2 a.2 / dotProduct a.2 a.2) • a.1)
      rw [smul_smul, hsc1, smul_sub, smul_smul]
    · show (c * μ) • q.2 -
          (μ / ν * (dotProduct q.2 a.2 / dotProduct a.2 a.2)) • ((c * ν) • a.2) =
        (c * μ) • (q.2 - (dotProduct q.2 a.2 / dotProduct a.2 a.2) • a.2)
      rw [smul_smul, hsc2, smul_sub, smul_smul]

/-- Reducing a rescaled pair against a rescaled accumulator rescales the
reduced pair. -/
lemma reduceAgainst_scale {N : Nat} (c μ : ℚ) (hc : c ≠ 0)
    (acc : List (Vec N × Vec N)) (νs : List ℚ) (hνl : νs.length = acc.length)
    (hν : ∀ ν ∈ νs, ν ≠ 0) (p : Vec N × Vec N) :
    reduceAgainst (List.zipWith (scalePair c) νs acc) (scalePair c μ p) =
      scalePair c μ (reduceAgainst acc p) := by
  induction acc generalizing νs p with
  | nil =>
    cases νs with
    | nil => rfl
    | cons ν νs' => exact absurd hνl (by simp)
  | cons a rest ih =>
    cases νs with
    | nil => exact absurd hνl (by simp)
    | cons ν νs' =>
      rw [List.zipWith_cons_cons, reduceAgainst, List.foldl_cons,
        reduceStep_scale c μ ν hc (hν ν (List.mem_cons_self _ _))]
      exact ih νs' (by simpa using hνl)
        (fun x hx => hν x (List.mem_cons_of_mem ν hx)) (reduceStep p a)

lemma gsAppend_length {N : Nat} (ps acc : List (Vec N × Vec N)) :
    (gsAppend acc ps).length = acc.length + ps.length := by
  induction ps generalizing acc with
  | nil => rfl
  | cons p ps ih =>
    rw [gsAppend, ih]
    simp
    omega

/-- The Gram–Schmidt accumulation commutes with per-pair rescaling. -/
lemma gsAppend_scale {N : Nat} (c : ℚ) (hc : c ≠ 0)
    (ps acc : List (Vec N × Vec N)) (μs νs : List ℚ)
    (hμl : μs.length = ps.length) (hνl : νs.length = acc.length)
    (hμ : ∀ μ ∈ μs, μ ≠ 0) (hν : ∀ ν ∈ νs, ν ≠ 0) :
    gsAppend (List.zipWith (scalePair c) νs acc)
        (List.zipWith (scalePair c) μs ps) =
      List.zipWith (scalePair c) (νs ++ μs) (gsAppend acc ps) := by
  induction ps generalizing acc μs νs with
  | nil =>
    cases μs with
    | nil => simp [gsAppend]
    | cons μ μs' => exact absurd hμl (by simp)
  | cons p ps ih =>
    cases μs with
    | nil => exact absurd hμl (by simp)
    | cons μ μs' =>
      rw [List.zipWith_cons_cons, gsAppend, gsAppend,
        reduceAgainst_scale c μ hc acc νs hνl hν p]
      have happ : List.zipWith (scalePair c) νs acc ++
          [scalePair c μ (reduceAgainst acc p)] =
          List.zipWith (scalePair c) (νs ++ [μ]) (acc ++ [reduceAgainst acc p]) := by
        rw [List.zipWith_append _ _ _ _ _ hνl]
        rfl
      rw [happ, ih (acc ++ [reduceAgainst acc p]) μs' (νs ++ [μ])
        (by simpa using hμl) (by simp [hνl])
        (fun x hx => hμ x (List.mem_cons_of_mem μ hx))
        (by
          intro x hx
          rcases List.mem_append.mp hx with h | h
          · exact hν x h
          · rcases List.mem_singleton.mp h with rfl
            exact hμ x (List.mem_cons_self _ _))]
      rw [List.append_assoc]
      rfl

/-- The reconstructed solution update is invariant under rescaling the
target by `c` and the pairs by nonzero per-pair scalars. -/
lemma solUpdate_scale {N : Nat} (c : ℚ) (hc : c ≠ 0) (r0 : Vec N)
    (pairs : List (Vec N × Vec N)) (μs : List ℚ)
    (hμl : μs.length = pairs.length) (hμ : ∀ μ ∈ μs, μ ≠ 0) :
    solUpdate (c • r0) (List.zipWith (scalePair c) μs pairs) =
      solUpdate r0 pairs := by
  induction pairs generalizing μs with
  | nil =>
    rw [List.zipWith_nil_right, solUpdate_nil, solUpdate_nil]
  | cons p rest ih =>
    cases μs with
    | nil => exact absurd hμl (by simp)
    | cons μ μs' =>
      rw [List.zipWith_cons_cons, solUpdate_cons, solUpdate_cons]
      have hμ0 : μ ≠ 0 := hμ μ (List.mem_cons_self _ _)
      have hcμ : c * μ ≠ 0 := mul_ne_zero hc hμ0
      congr 1
      · rw [projCoeff, projCoeff]
        have hcond : dotProduct (scalePair c μ p).2 (scalePair c μ p).2 =
            (c * μ) * ((c * μ) * dotProduct p.2 p.2) := scalePair_snd_dot c μ μ p p
        by_cases hγ : dotProduct p.2 p.2 = 0
        · rw [if_pos (by rw [hcond, hγ]; ring), if_pos hγ, zero_smul, zero_smul]
        · rw [if_neg (by
              rw [hcond]
              exact mul_ne_zero hcμ (mul_ne_zero hcμ hγ)),
            if_neg hγ]
          have hnum : dotProduct (c • r0) (scalePair c μ p).2 =
              c * ((c * μ) * dotProduct r0 p.2) := by
            show dotProduct (c • r0) ((c * μ) • p.2) = _
            rw [smul_dotProduct, dotProduct_smul, smul_eq_mul, smul_eq_mul]
          show (dotProduct (c • r0) (scalePair c μ p).2 /
              dotProduct (scalePair c μ p).2 (scalePair c μ p).2) • (μ • p.1) = _
          rw [smul_smul, hnum, hcond]
          congr 1
          field_simp
          ring
      · exact ih μs' (by simpa using hμl)
          (fun x hx => hμ x (List.mem_cons_of_mem μ hx))

lemma zipWith_map_same {α β γ δ : Type} (f : β → γ → δ) (g : α → β) (h : α → γ) :
    ∀ l : List α, List.zipWith f (l.map g) (l.map h) = l.map (fun x => f (g x) (h x))
  | [] => rfl
  | a :: l => by
    rw [List.map_cons, List.map_cons, List.zipWith_cons_cons, List.map_cons,
      zipWith_map_same f g h l]

/-- The GMRES iterate with preconditioner `c • 1`, unfolded. -/
lemma gmresSolution_smul_one {N : Nat} (A : Matrix (Fin N) (Fin N) ℚ)
    (c : ℚ) (b x0 : Vec N) (k : Nat) :
    gmresSolution A (c • 1) b x0 k =
      x0 + solUpdate (c • (b - A.mulVec x0))
        (gramSchmidtPairs ((krylovVecs (c • A) (c • (b - A.mulVec x0)) k).map
          (fun v => (v, (c • A).mulVec v)))) := by
  rw [gmresSolution]
  simp only [Matrix.smul_mulVec_assoc, Matrix.one_mulVec, smul_mul_assoc, one_mul]

/-- A nonzero scalar multiple of the identity as left preconditioner leaves
every GMRES iterate unchanged. -/
lemma scalar_precond_invariant {N : Nat} (A : Matrix (Fin N) (Fin N) ℚ)
    (c : ℚ) (hc : c ≠ 0) (b x0 : Vec N) (k : Nat) :
    gmresSolution A (c • 1) b x0 k = gmresSolution A 1 b x0 k := by
  rw [gmresSolution_smul_one, gmresSolution_one]
  congr 1
  have hkry : krylovVecs (c • A) (c • (b - A.mulVec x0)) k =
      (List.range k).map (fun i => c ^ (i + 1) • ((A ^ i).mulVec (b - A.mulVec x0))) := by
    rw [krylovVecs]
    apply List.map_congr_left
    intro i _
    rw [smul_pow, Matrix.smul_mulVec_assoc, Matrix.mulVec_smul, smul_smul, ← pow_succ]
  have hpp : (krylovVecs (c • A) (c • (b - A.mulVec x0)) k).map
      (fun v => (v, (c • A).mulVec v)) =
      List.zipWith (scalePair c) ((List.range k).map (fun i => c ^ (i + 1)))
        ((krylovVecs A (b - A.mulVec x0) k).map (fun v => (v, A.mulVec v))) := by
    rw [hkry, krylovVecs, List.map_map, List.map_map, zipWith_map_same]
    apply List.map_congr_left
    intro i _
    apply Prod.ext
    · rfl
    · show (c • A).mulVec (c ^ (i + 1) • ((A ^ i).mulVec (b - A.mulVec x0))) =
        (c * c ^ (i + 1)) • A.mulVec ((A ^ i).mulVec (b - A.mulVec x0))
      rw [Matrix.smul_mulVec_assoc, Matrix.mulVec_smul, smul_smul]
  rw [hpp]
  have hμnz : ∀ μ ∈ (List.range k).map (fun i => c ^ (i + 1)), μ ≠ 0 := by
    intro μ hμ
    rcases List.mem_map.mp hμ with ⟨i, _, rfl⟩
    exact pow_ne_zero _ hc
  have hμl : ((List.range k).map (fun i => c ^ (i + 1))).length =
      ((krylovVecs A (b - A.mulVec x0) k).map (fun v => (v, A.mulVec v))).length := by
    simp [krylovVecs]
  have hgs := gsAppend_scale c hc
    ((krylovVecs A (b - A.mulVec x0) k).map (fun v => (v, A.mulVec v)))
    [] ((List.range k).map (fun i => c ^ (i + 1))) [] hμl rfl hμnz
    (by intro x hx; exact absurd hx (List.not_mem_nil x))
  rw [List.zipWith_nil_left, List.nil_append] at hgs
  rw [gramSchmidtPairs, gramSchmidtPairs, hgs]
  apply solUpdate_scale c hc (b - A.mulVec x0) _ _ ?_ hμnz
  rw [gsAppend_length]
  simp [krylovVecs]

/-- Every diagonal entry extracted from the Poisson matrix equals `4`. -/
lemma poisson_diag_four (n m i : Nat) (hi : i < n * m) :
    (get_diagonal (poisson n m)).getD i 0 = 4 := by
  rw [get_diagonal_eq_diag_sum (poisson n m) i hi]
  show (poisson n m).toMatrix i i = 4
  rw [poisson, denseToBCOO_toMatrix (n * m) (n * m) (poissonDense n m) i i hi hi,
    poissonDense_diag n m i hi]

/-- C2: for positive `n`, `m`, every diagonal entry of `poisson n m` is `4`,
so the notebook's `jacobi` vector is constant `4`, its preconditioner
`x / jacobi` is the scalar operator `(1/4) • 1`, which commutes with the
Poisson operator, and every GMRES iterate and residual is unchanged
relative to the unpreconditioned solve. -/
theorem jacobi_preconditioner_noop (n m : Nat) (_hn : 0 < n) (_hm : 0 < m) :
    (∀ i, i < n * m → (get_diagonal (poisson n m)).getD i 0 = 4) ∧
      (∀ x : Vec (n * m), precondFun (jacobiVec n m) x = (1 / 4 : ℚ) • x) ∧
      ((1 / 4 : ℚ) • (1 : Matrix (Fin (n * m)) (Fin (n * m)) ℚ) * poissonMatrix n m =
        poissonMatrix n m * ((1 / 4 : ℚ) • 1)) ∧
      (∀ (b x0 : Vec (n * m)) (k : Nat),
        gmresSolution (poissonMatrix n m) ((1 / 4 : ℚ) • 1) b x0 k =
          gmresSolution (poissonMatrix n m) 1 b x0 k ∧
        b - (poissonMatrix n m).mulVec
            (gmresSolution (poissonMatrix n m) ((1 / 4 : ℚ) • 1) b x0 k) =
          b - (poissonMatrix n m).mulVec
            (gmresSolution (poissonMatrix n m) 1 b x0 k)) := by
  refine ⟨fun i hi => poisson_diag_four n m i hi, ?_, ?_, ?_⟩
  · intro x
    funext i
    show x i / jacobiVec n m i = ((1 / 4 : ℚ) • x) i
    have h4 : jacobiVec n m i = 4 := poisson_diag_four n m i.val i.isLt
    rw [h4, Pi.smul_apply, smul_eq_mul]
    ring
  · rw [smul_mul_assoc, mul_smul_comm, one_mul, mul_one]
  · intro b x0 k
    have hinv := scalar_precond_invariant (poissonMatrix n m) (1 / 4 : ℚ)
      (by norm_num) b x0 k
    exact ⟨hinv, by rw [hinv]⟩

/-- Witness for C2 at `n = m = 2`. -/
theorem jacobi_preconditioner_noop_witness :
    (0 < 2 ∧ 0 < 2) ∧
      ((∀ i, i < 2 * 2 → (get_diagonal (poisson 2 2)).getD i 0 = 4) ∧
        (∀ x : Vec (2 * 2), precondFun (jacobiVec 2 2) x = (1 / 4 : ℚ) • x) ∧
        ((1 / 4 : ℚ) • (1 : Matrix (Fin (2 * 2)) (Fin (2 * 2)) ℚ) * poissonMatrix 2 2 =
          poissonMatrix 2 2 * ((1 / 4 : ℚ) • 1)) ∧
        (∀ (b x0 : Vec (2 * 2)) (k : Nat),
          gmresSolution (poissonMatrix 2 2) ((1 / 4 : ℚ) • 1) b x0 k =
            gmresSolution (poissonMatrix 2 2) 1 b x0 k ∧
          b - (poissonMatrix 2 2).mulVec
              (gmresSolution (poissonMatrix 2 2) ((1 / 4 : ℚ) • 1) b x0 k) =
            b - (poissonMatrix 2 2).mulVec
              (gmresSolution (poissonMatrix 2 2) 1 b x0 k))) :=
  ⟨⟨by decide, by decide⟩, jacobi_preconditioner_noop 2 2 (by decide) (by decide)⟩

/-- C1 (code behavior at the notebook's fixed configuration): on the
200-by-200 grid, the notebook's Jacobi preconditioner acts as `(1/4) • 1`,
every preconditioned GMRES iterate coincides with the unpreconditioned one
for every right-hand side (including the notebook's fixed random `b`), and
the squared residual norms are equal — in particular the preconditioned
residual norm is not strictly smaller, matching the notebook's recorded
identical outputs (19.014511 in both cells) and contradicting its
"That's much better!" narrative. -/
theorem notebook_preconditioner_residual_not_smaller :
    (∀ x : Vec (200 * 200),
      precondFun (jacobiVec 200 200) x = (1 / 4 : ℚ) • x) ∧
    ∀ (b x0 : Vec (200 * 200)) (k : Nat),
      gmresSolution (poissonMatrix 200 200) ((1 / 4 : ℚ) • 1) b x0 k =
        gmresSolution (poissonMatrix 200 200) 1 b x0 k ∧
      dotProduct
          (b - (poissonMatrix 200 200).mulVec
            (gmresSolution (poissonMatrix 200 200) ((1 / 4 : ℚ) • 1) b x0 k))
          (b - (poissonMatrix 200 200).mulVec
            (gmresSolution (poissonMatrix 200 200) ((1 / 4 : ℚ) • 1) b x0 k)) =
        dotProduct
          (b - (poissonMatrix 200 200).mulVec
            (gmresSolution (poissonMatrix 200 200) 1 b x0 k))
          (b - (poissonMatrix 200 200).mulVec
            (gmresSolution (poissonMatrix 200 200) 1 b x0 k)) ∧
      ¬ dotProduct
          (b - (poissonMatrix 200 200).mulVec
            (gmresSolution (poissonMatrix 200 200) ((1 / 4 : ℚ) • 1) b x0 k))
          (b - (poissonMatrix 200 200).mulVec
            (gmresSolution (poissonMatrix 200 200) ((1 / 4 : ℚ) • 1) b x0 k)) <
        dotProduct
          (b - (poissonMatrix 200 200).mulVec
            (gmresSolution (poissonMatrix 200 200) 1 b x0 k))
          (b - (poissonMatrix 200 200).mulVec
            (gmresSolution (poissonMatrix 200 200) 1 b x0 k)) := by
  constructor
  · intro x
    funext i
    show x i / jacobiVec 200 200 i = ((1 / 4 : ℚ) • x) i
    have h4 : jacobiVec 200 200 i = 4 := poisson_diag_four 200 200 i.val i.isLt
    rw [h4, Pi.smul_apply, smul_eq_mul]
    ring
  · intro b x0 k
    have hinv := scalar_precond_invariant (poissonMatrix 200 200) (1 / 4 : ℚ)
      (by norm_num) b x0 k
    refine ⟨hinv, by rw [hinv], ?_⟩
    rw [hinv]
    exact lt_irrefl _

/-- Faithfulness of the decidable convergence test: for nonnegative
tolerances and squared norms, `tolSat` holds exactly when the spec's real
inequality `sqrt rSq <= atol + rtol * sqrt bSq` holds. -/
lemma tolSat_iff_sqrt (atol rtol bSq rSq : ℚ) (ha : 0 ≤ atol) (ht : 0 ≤ rtol)
    (hB : 0 ≤ bSq) (hR : 0 ≤ rSq) :
    tolSat atol rtol bSq rSq = true ↔
      Real.sqrt (rSq : ℝ) ≤ (atol : ℝ) + (rtol : ℝ) * Real.sqrt (bSq : ℝ) := by
  rw [tolSat, decide_eq_true_eq]
  have hs : (0 : ℝ) ≤ Real.sqrt (bSq : ℝ) := Real.sqrt_nonneg _
  have hs2 : Real.sqrt (bSq : ℝ) ^ 2 = (bSq : ℝ) :=
    Real.sq_sqrt (by exact_mod_cast hB)
  have ha' : (0 : ℝ) ≤ (atol : ℝ) := by exact_mod_cast ha
  have ht' : (0 : ℝ) ≤ (rtol : ℝ) := by exact_mod_cast ht
  have hrts : (0 : ℝ) ≤ (atol : ℝ) + rtol * Real.sqrt (bSq : ℝ) :=
    add_nonneg ha' (mul_nonneg ht' hs)
  constructor
  · intro h
    have key : (rSq : ℝ) ≤ ((atol : ℝ) + rtol * Real.sqrt (bSq : ℝ)) ^ 2 := by
      rcases h with h | h
      · have hC : (rSq : ℝ) - ((atol : ℝ) ^ 2 + (rtol : ℝ) ^ 2 * (bSq : ℝ)) ≤ 0 := by
          exact_mod_cast h
        nlinarith [mul_nonneg (mul_nonneg ha' ht') hs]
      · have hC2 : ((rSq : ℝ) - ((atol : ℝ) ^ 2 + (rtol : ℝ) ^ 2 * (bSq : ℝ))) ^ 2 ≤
            4 * (atol : ℝ) ^ 2 * (rtol : ℝ) ^ 2 * (bSq : ℝ) := by
          exact_mod_cast h
        have hD : (0 : ℝ) ≤ 2 * (atol : ℝ) * (rtol : ℝ) :=
          mul_nonneg (mul_nonneg (by norm_num) ha') ht'
        have hDsq : (2 * (atol : ℝ) * (rtol : ℝ) * Real.sqrt (bSq : ℝ)) ^ 2 =
            4 * (atol : ℝ) ^ 2 * (rtol : ℝ) ^ 2 * (bSq : ℝ) := by
          have hexp : (2 * (atol : ℝ) * (rtol : ℝ) * Real.sqrt (bSq : ℝ)) ^ 2 =
              4 * (atol : ℝ) ^ 2 * (rtol : ℝ) ^ 2 * Real.sqrt (bSq : ℝ) ^ 2 := by
            ring
          rw [hexp, hs2]
        rw [← hDsq] at hC2
        have hCle : (rSq : ℝ) - ((atol : ℝ) ^ 2 + (rtol : ℝ) ^ 2 * (bSq : ℝ)) ≤
            2 * (atol : ℝ) * (rtol : ℝ) * Real.sqrt (bSq : ℝ) := by
          calc (rSq : ℝ) - ((atol : ℝ) ^ 2 + (rtol : ℝ) ^ 2 * (bSq : ℝ))
              ≤ |(rSq : ℝ) - ((atol : ℝ) ^ 2 + (rtol : ℝ) ^ 2 * (bSq : ℝ))| :=
                le_abs_self _
            _ = Real.sqrt (((rSq : ℝ) - ((atol : ℝ) ^ 2 + (rtol : ℝ) ^ 2 * (bSq : ℝ))) ^ 2) :=
                (Real.sqrt_sq_eq_abs _).symm
            _ ≤ Real.sqrt ((2 * (atol : ℝ) * (rtol : ℝ) * Real.sqrt (bSq : ℝ)) ^ 2) :=
                Real.sqrt_le_sqrt hC2
            _ = 2 * (atol : ℝ) * (rtol : ℝ) * Real.sqrt (bSq : ℝ) :=
                Real.sqrt_sq (mul_nonneg hD hs)
        nlinarith [hCle, hs2]
    calc Real.sqrt (rSq : ℝ)
        ≤ Real.sqrt (((atol : ℝ) + rtol * Real.sqrt (bSq : ℝ)) ^ 2) :=
          Real.sqrt_le_sqrt key
      _ = (atol : ℝ) + rtol * Real.sqrt (bSq : ℝ) := Real.sqrt_sq hrts
  · intro h
    have hR2 : (rSq : ℝ) ≤ ((atol : ℝ) + rtol * Real.sqrt (bSq : ℝ)) ^ 2 := by
      have h1 : Real.sqrt (rSq : ℝ) ^ 2 ≤
          ((atol : ℝ) + rtol * Real.sqrt (bSq : ℝ)) ^ 2 :=
        pow_le_pow_left₀ (Real.sqrt_nonneg _) h 2
      rwa [Real.sq_sqrt (by exact_mod_cast hR)] at h1
    have hCle : (rSq : ℝ) - ((atol : ℝ) ^ 2 + (rtol : ℝ) ^ 2 * (bSq : ℝ)) ≤
        2 * (atol : ℝ) * (rtol : ℝ) * Real.sqrt (bSq : ℝ) := by
      nlinarith [hs2]
    by_cases hC : rSq - (atol ^ 2 + rtol ^ 2 * bSq) ≤ 0
    · exact Or.inl hC
    · right
      push_neg at hC
      have hCpos : (0 : ℝ) < (rSq : ℝ) - ((atol : ℝ) ^ 2 + (rtol : ℝ) ^ 2 * (bSq : ℝ)) := by
        exact_mod_cast hC
      have h2 : ((rSq : ℝ) - ((atol : ℝ) ^ 2 + (rtol : ℝ) ^ 2 * (bSq : ℝ))) ^ 2 ≤
          (2 * (atol : ℝ) * (rtol : ℝ) * Real.sqrt (bSq : ℝ)) ^ 2 :=
        pow_le_pow_left₀ (le_of_lt hCpos) hCle 2
      have h3 : ((rSq : ℝ) - ((atol : ℝ) ^ 2 + (rtol : ℝ) ^ 2 * (bSq : ℝ))) ^ 2 ≤
          4 * (atol : ℝ) ^ 2 * (rtol : ℝ) ^ 2 * (bSq : ℝ) := by
        have hDsq : (2 * (atol : ℝ) * (rtol : ℝ) * Real.sqrt (bSq : ℝ)) ^ 2 =
            4 * (atol : ℝ) ^ 2 * (rtol : ℝ) ^ 2 * (bSq : ℝ) := by
          have hexp : (2 * (atol : ℝ) * (rtol : ℝ) * Real.sqrt (bSq : ℝ)) ^ 2 =
              4 * (atol : ℝ) ^ 2 * (rtol : ℝ) ^ 2 * Real.sqrt (bSq : ℝ) ^ 2 := by
            ring
          rw [hexp, hs2]
        rw [← hDsq]
        exact h2
      exact_mod_cast h3

end LineaxSpec
